import Mathlib

/-!
Verification of the pm-copilot ticket classification & insight pipeline.

This file gives a shallow embedding, in Lean 4, of the core functions of the
repository (`backend/nlp/preprocess.py`, `backend/nlp/classify.py`,
`backend/nlp/product_verticals.py`, `backend/services/insights.py`,
`backend/services/verticals.py`, `backend/services/review.py`,
`backend/services/calibration.py`) and proves properties of them.

Modelling conventions:
* Python strings are `String` / `List Char`; text processing works on
  `List Char` directly.  Python `str.lower`, `str.upper` and `str.strip`
  are modelled character-wise (faithful for the ASCII data the pipeline
  handles).
* Python floats are modelled as exact rationals `ℚ`.
* The sentence-embedding model (an external collaborator loaded by
  `backend/nlp/embeddings.py`) is an abstract parameter
  `E : String → List ℚ`; cosine similarity is the dot product, exactly as
  in the source (vectors are assumed normalised there).
* Database stores are functions `Nat → Option _` (ticket id keyed), and
  the SQLAlchemy upserts become pointwise updates, mirroring
  `backend/db.py`.
-/

namespace PMCopilot

/-! ## Basic Python string helpers -/

/-- Python `str.lower` (character-wise, ASCII-faithful). -/
def lowerStr (s : String) : String := ⟨s.data.map Char.toLower⟩

/-- Python `str.upper` (character-wise, ASCII-faithful). -/
def upperStr (s : String) : String := ⟨s.data.map Char.toUpper⟩

/-- Python whitespace characters (`\s` of the `re` module, ASCII range). -/
def isPySpace (c : Char) : Bool :=
  c == ' ' || c == '\t' || c == '\n' || c == '\r' || c == '\x0b' || c == '\x0c'

/-- Characters counted as word characters by `\w` / `\b` of Python `re`
(ASCII range). -/
def isWordChar (c : Char) : Bool := c.isAlpha || c.isDigit || c == '_'

/-- Python `str.strip` on a character list: drop whitespace from both ends. -/
def stripChars (l : List Char) : List Char :=
  ((l.dropWhile isPySpace).reverse.dropWhile isPySpace).reverse

/-- Python `str.strip` on strings. -/
def pyStrip (s : String) : String := ⟨stripChars s.data⟩

/-- Python truthiness of an optional string: `None` and `""` are falsy. -/
def pyTruthy : Option String → Bool
  | none => false
  | some s => s ≠ ""

/-- The literal `w` occurs in `s` starting at index `i`. -/
def litAt (s : List Char) (i : Nat) (w : List Char) : Bool :=
  (s.drop i).take w.length == w

/-- The literal `w` occurs somewhere in `s` (Python `w in s`). -/
def containsSubstr (s w : List Char) : Bool :=
  (List.range (s.length + 1)).any (fun i => litAt s i w)

/-- No word character at index `i` of `s` (also true past the end); this is
the condition `\b` imposes on the neighbour of a word character. -/
def noWordCharAt (s : List Char) (i : Nat) : Bool :=
  match s.drop i with
  | [] => true
  | c :: _ => !isWordChar c

/-- A word boundary `\b` holds just before index `i` (for a literal that
starts with a word character). -/
def wordStartAt (s : List Char) (i : Nat) : Bool :=
  i == 0 || noWordCharAt s (i - 1)

/-! ## Type classifier (`backend/nlp/classify.py`)

`RE_FEATURE = \b(feature|request|enhancement|support.*|would like|nice to
have|roadmap)\b` and `RE_ISSUE = \b(bug|error|fail|failing|broken|crash|
incident|downtime|not working|fix)\b`, searched case-insensitively over the
lowercased combined text.  Each alternative is a literal (starting and
ending with word characters) except `support.*`: there the trailing `\b`
is always satisfiable once `\bsupport` matches (scanning right from the
final `t` one reaches a word/non-word transition or the end of the input
before any newline could stop `.*`), so it is modelled as a literal that
only needs the leading boundary. -/

/-- One regex alternative: a literal with a mandatory leading word boundary;
`closed` demands the trailing word boundary as well. -/
structure Alt where
  lit : List Char
  closed : Bool
deriving DecidableEq

/-- The alternative `a` matches in `s` at index `i`. -/
def altAt (s : List Char) (i : Nat) (a : Alt) : Bool :=
  litAt s i a.lit && wordStartAt s i &&
    (!a.closed || noWordCharAt s (i + a.lit.length))

/-- `re.search` over a disjunction of alternatives: some alternative matches
at some index. -/
def searchAlts (alts : List Alt) (s : List Char) : Bool :=
  (List.range (s.length + 1)).any (fun i => alts.any (altAt s i))

/-- Alternatives of `RE_FEATURE` (note `support.*`, an open-ended match). -/
def featureAlts : List Alt :=
  [⟨"feature".data, true⟩, ⟨"request".data, true⟩, ⟨"enhancement".data, true⟩,
   ⟨"support".data, false⟩, ⟨"would like".data, true⟩,
   ⟨"nice to have".data, true⟩, ⟨"roadmap".data, true⟩]

/-- Alternatives of `RE_ISSUE`. -/
def issueAlts : List Alt :=
  [⟨"bug".data, true⟩, ⟨"error".data, true⟩, ⟨"fail".data, true⟩,
   ⟨"failing".data, true⟩, ⟨"broken".data, true⟩, ⟨"crash".data, true⟩,
   ⟨"incident".data, true⟩, ⟨"downtime".data, true⟩,
   ⟨"not working".data, true⟩, ⟨"fix".data, true⟩]

/-- The lowercased combined text `f"{title} {content} {labels_csv}
{status}".lower()` that `classify_ticket` scans. -/
def typeText (title content labels_csv status : String) : String :=
  lowerStr (title ++ " " ++ content ++ " " ++ labels_csv ++ " " ++ status)

/-- `classify_ticket` from `backend/nlp/classify.py`. -/
def classify_ticket (source title content labels_csv status : String) : String :=
  let text := typeText title content labels_csv status
  let f := searchAlts featureAlts text.data
  let i := searchAlts issueAlts text.data
  if f && !i then "feature_request"
  else if i && !f then "issue"
  else if source == "jira" then "issue"
  else if source == "zendesk" then "feature_request"
  else "unknown"

/-- Matching a single alternative implies matching any disjunction
containing it. -/
theorem searchAlts_of_mem {a : Alt} {alts : List Alt} (h : a ∈ alts)
    (s : List Char) (hs : searchAlts [a] s = true) : searchAlts alts s = true := by
  simp only [searchAlts, List.any_eq_true] at hs ⊢
  obtain ⟨i, hi, ha⟩ := hs
  obtain ⟨b, hb, hba⟩ := ha
  simp only [List.mem_singleton] at hb
  exact ⟨i, hi, a, h, hb ▸ hba⟩

/-- C6 (counterexample): the combined lowercase text of the ticket
`(source="zendesk", title="bug", content="support")` contains "bug" and
contains none of the feature-vocabulary terms listed by the claim, yet
`classify_ticket` returns "feature_request", not "issue": the code's
feature regex additionally contains the alternative `support.*`, so both
vocabularies match and the zendesk tie-breaker fires. -/
theorem claim_c6_counterexample :
    classify_ticket "zendesk" "bug" "support" "" "" = "feature_request" ∧
    containsSubstr (typeText "bug" "support" "" "").data "bug".data = true ∧
    (["feature", "request", "enhancement", "would like", "nice to have",
      "roadmap"].all
      (fun w => !containsSubstr (typeText "bug" "support" "" "").data w.data))
      = true := by
  decide

/-- C6 (amended): for every ticket whose combined lowercase text
(title + content + labels + status) contains "bug" as a standalone word and
matches no term of the code's feature vocabulary (feature, request,
enhancement, support…, "would like", "nice to have", roadmap, all at word
boundaries), `classify_ticket` returns "issue", for every source. -/
theorem claim_c6_amended (source title content labels_csv status : String)
    (hbug : searchAlts [⟨"bug".data, true⟩]
      (typeText title content labels_csv status).data = true)
    (hfeat : searchAlts featureAlts
      (typeText title content labels_csv status).data = false) :
    classify_ticket source title content labels_csv status = "issue" := by
  have hiss : searchAlts issueAlts (typeText title content labels_csv status).data = true :=
    searchAlts_of_mem (by simp [issueAlts]) _ hbug
  simp [classify_ticket, hfeat, hiss]

/-- Witness for C6 (amended) at the concrete ticket
`(source="slack", title="bug")`. -/
theorem claim_c6_amended_witness :
    searchAlts [⟨"bug".data, true⟩] (typeText "bug" "" "" "").data = true ∧
    searchAlts featureAlts (typeText "bug" "" "" "").data = false ∧
    classify_ticket "slack" "bug" "" "" "" = "issue" :=
  ⟨by decide, by decide, claim_c6_amended "slack" "bug" "" "" "" (by decide) (by decide)⟩

/-! ## Product-vertical catalog (`backend/nlp/product_verticals.py`) -/

/-- One entry of the static `VERTICALS` catalog. -/
structure Vertical where
  slug : String
  name : String
  keywords : List String
  jira_projects : List String
  jira_labels : List String
  zendesk_tags : List String
deriving DecidableEq

/-- The canonical catalog, transcribed from `product_verticals.py`. -/
def VERTICALS : List Vertical :=
  [⟨"multicurrency-accounts-wallets", "Multicurrency Accounts and Wallets",
    ["wallet", "virtual account", "multi-currency", "multicurrency",
     "ledger balance", "iban", "account number"], [], [], []⟩,
   ⟨"fee-engine-invoicing", "Fee Engine and Invoicing",
    ["fee", "fees", "pricing", "invoice", "invoicing", "surcharge", "rate card"],
    [], ["invoice", "pricing"], ["invoice", "pricing", "fees"]⟩,
   ⟨"payins-direct-debits", "Payins and Direct Debits",
    ["pay-in", "payin", "direct debit", "ach debit", "sepa dd", "pull funds",
     "bank transfer in", "incoming payment"],
    [], ["direct-debit", "payin"], ["direct_debit", "payin"]⟩,
   ⟨"fx-service", "FX Service",
    ["fx", "convert", "conversion", "quote", "rate", "swap", "order",
     "fx rate", "fx quote"],
    ["FX"], ["fx", "rates", "quote"], ["fx", "rate", "quote"]⟩,
   ⟨"treasury-management-gl", "Treasury Management and GL Spoc",
    ["treasury", "liquidity", "gl", "general ledger", "reconciliation",
     "nostro", "cash management"],
    [], ["treasury", "recon", "gl"], ["treasury", "reconciliation"]⟩,
   ⟨"payouts-reliability-api", "Payouts Reliability and API Experience",
    ["payout", "payouts api", "stp", "webhook", "idempotency", "beneficiary",
     "transfer api", "payment api"],
    [], ["payouts_api", "stp"], ["payouts", "api"]⟩,
   ⟨"swift-connect", "Swift Connect",
    ["swift", "mt103", "bic", "gpi", "mt202"],
    ["SWIFT"], ["swift", "mt103", "bic"], ["swift"]⟩,
   ⟨"network-payouts", "Network Payouts",
    ["local rails", "upi", "fps", "ach credit", "pix", "domestic payout",
     "local transfer"],
    [], ["local-rails", "ach", "pix", "upi", "fps"], ["ach", "pix", "upi", "fps"]⟩,
   ⟨"global-wires", "Global wires",
    ["wire", "wire transfer", "international wire", "cross-border wire",
     "swift wire"],
    ["WIRES"], ["wire"], ["wire"]⟩,
   ⟨"verify", "Verify",
    ["verify", "account verification", "name match", "beneficiary check",
     "account check"],
    ["VERIFY"], ["verify"], ["verify"]⟩,
   ⟨"client-onboarding", "Client Onboarding",
    ["kyb", "client onboarding", "entitlements", "go-live", "contracting"],
    ["CLIENT"], ["onboarding", "kyb"], ["kyb"]⟩,
   ⟨"customer-onboarding", "Customer Onboarding",
    ["kyc", "identity", "customer verification", "level 2", "level 3",
     "l2", "l3"],
    ["CUSTOMER"], ["onboarding", "kyc"], ["kyc"]⟩,
   ⟨"caas", "CaaS",
    ["compliance", "screening", "transaction monitoring", "cdd", "aml"],
    ["CAAS"], ["compliance", "screening", "monitoring"], ["compliance"]⟩,
   ⟨"data-reporting", "Data and Reporting",
    ["report", "bi", "dashboard", "export", "looker", "analytics"],
    [], ["report", "export"], ["report", "export"]⟩,
   ⟨"b2b-travel", "B2B Travel",
    ["vcc", "virtual card", "ota", "gds", "settlement", "travel"],
    ["TRAVEL"], ["vcc", "travel"], ["travel"]⟩,
   ⟨"platform-issuing", "Platform Issuing",
    ["issuing", "cards", "card", "pan", "tokenization", "authorization",
     "auth", "issuer"],
    ["ISSUING"], ["cards", "issuing"], ["issuing", "card"]⟩,
   ⟨"api-docs", "API and API Docs",
    ["openapi", "swagger", "docs", "documentation", "api reference",
     "reference guide"],
    ["DOCS"], ["docs", "openapi"], ["docs"]⟩,
   ⟨"client-portal", "Client Portal",
    ["portal", "dashboard ui", "non-api", "web app", "client portal"],
    ["PORTAL"], ["portal"], ["portal"]⟩]

/-- The "horizontal" verticals deprioritised by both tie-breakers. -/
def horizontalSlugs : List String := ["api-docs", "client-portal", "data-reporting"]

/-- Structured explanation payloads attached to classification results. -/
inductive Explanation where
  | noRuleMatch
  | jiraProject (project : String)
  | jiraLabel (matched : List String)
  | zendeskTag (matched : List String)
  | noSignal
  | ensemble (matchedKeywords : List String) (kwCounts : List (String × Nat))
      (embedTop : List (String × ℚ)) (combinedBest : String × ℚ)
  | manual
deriving DecidableEq

/-- Result quadruple `(slug, name, confidence, explanation)` of the
classifier functions. -/
structure VResult where
  slug : Option String
  name : Option String
  conf : ℚ
  exp : Explanation
deriving DecidableEq

/-- One Stage-A rule candidate `(slug, name, confidence, explanation)`. -/
structure Cand where
  slug : String
  name : String
  conf : ℚ
  exp : Explanation
deriving DecidableEq

/-- Python `str.split(",")` on a character list. -/
def splitComma : List Char → List (List Char)
  | [] => [[]]
  | c :: rest =>
    if c = ',' then [] :: splitComma rest
    else
      match splitComma rest with
      | [] => [[c]]
      | g :: gs => (c :: g) :: gs

/-- The label set `{p.strip().lower() for p in labels_csv.split(",") if
p.strip()}` (modelled as a list; only membership is ever queried). -/
def pySplitStripLower (labels_csv : String) : List String :=
  ((((splitComma labels_csv.data).map (fun p => pyStrip ⟨p⟩)).filter
    (fun p => p ≠ "")).map lowerStr)

/-- The Stage-A candidate `rule_based_vertical` collects for one catalog
entry `v` (the `continue` after a project hit makes the checks an
if/else-if chain; at most one rule fires per entry because the source is
fixed). -/
def candFor (source : String) (labels : List String) (pkey : String)
    (v : Vertical) : Option Cand :=
  if source == "jira" && pkey != "" && (v.jira_projects.map upperStr).contains pkey then
    some ⟨v.slug, v.name, 19/20, .jiraProject pkey⟩
  else if source == "jira" && !labels.isEmpty &&
      (v.jira_labels.map lowerStr).any (fun l => labels.contains l) then
    some ⟨v.slug, v.name, 9/10,
      .jiraLabel (labels.filter (fun l => (v.jira_labels.map lowerStr).contains l))⟩
  else if source == "zendesk" && !labels.isEmpty &&
      (v.zendesk_tags.map lowerStr).any (fun l => labels.contains l) then
    some ⟨v.slug, v.name, 9/10,
      .zendeskTag (labels.filter (fun l => (v.zendesk_tags.map lowerStr).contains l))⟩
  else none

/-- Sort key `(confidence, 0 if horizontal else 1)` used by Stage A. -/
def candKey (c : Cand) : ℚ × Nat :=
  (c.conf, if horizontalSlugs.contains c.slug then 0 else 1)

/-- Lexicographic `≤` on the `(confidence, flag)` keys. -/
def keyLE (a b : ℚ × Nat) : Prop := a.1 < b.1 ∨ (a.1 = b.1 ∧ a.2 ≤ b.2)

instance (a b : ℚ × Nat) : Decidable (keyLE a b) :=
  inferInstanceAs (Decidable (a.1 < b.1 ∨ (a.1 = b.1 ∧ a.2 ≤ b.2)))

/-- Lexicographic `<` on the `(confidence, flag)` keys. -/
def keyLT (a b : ℚ × Nat) : Prop := a.1 < b.1 ∨ (a.1 = b.1 ∧ a.2 < b.2)

instance (a b : ℚ × Nat) : Decidable (keyLT a b) :=
  inferInstanceAs (Decidable (a.1 < b.1 ∨ (a.1 = b.1 ∧ a.2 < b.2)))

/-- The last element with maximal key (later elements win ties): this is
`l[-1]` after a stable ascending `l.sort(key=…)`. -/
def argmaxLast {α : Type} (key : α → ℚ × Nat) (c : α) (rest : List α) : α :=
  rest.foldl (fun acc x => if keyLE (key acc) (key x) then x else acc) c

/-- The first element with maximal key (earlier elements win ties): this is
Python's `max(l, key=…)`. -/
def argmaxFirst {α : Type} (key : α → ℚ × Nat) (c : α) (rest : List α) : α :=
  rest.foldl (fun acc x => if keyLT (key acc) (key x) then x else acc) c

/-- The last element of the candidate list with maximal key: this is
`candidates[-1]` after the stable ascending `candidates.sort(key=…)`. -/
def pickLast (c : Cand) (rest : List Cand) : Cand := argmaxLast candKey c rest

/-- `rule_based_vertical` from `product_verticals.py`, over an arbitrary
catalog (the source reads the module-level `VERTICALS`). -/
def rule_based_vertical (catalog : List Vertical)
    (source labels_csv project : String) : VResult :=
  let labels := pySplitStripLower labels_csv
  let pkey := upperStr (pyStrip project)
  match catalog.filterMap (candFor source labels pkey) with
  | [] => ⟨none, none, 0, .noRuleMatch⟩
  | c :: rest =>
    let best := pickLast c rest
    ⟨some best.slug, some best.name, best.conf, best.exp⟩

/-! ## Stage B: keyword + embedding ensemble -/

/-- Dot product; cosine similarity of the (normalised) embedding vectors. -/
def dot (a b : List ℚ) : ℚ := (List.zipWith (· * ·) a b).sum

/-- Prototype text `f"{name}. {' '.join(keywords)}".strip()` embedded once
per vertical. -/
def protoText (v : Vertical) : String :=
  pyStrip (v.name ++ ". " ++ String.intercalate " " v.keywords)

/-- The search text `f"{title} \n {content} \n {labels_csv} \n {project}
\n {source}"`. -/
def ensembleText (source title content labels_csv project : String) : String :=
  title ++ " \n " ++ content ++ " \n " ++ labels_csv ++ " \n " ++ project
    ++ " \n " ++ source

/-- Keywords of `v` found (case-insensitively, as substrings) in the
lowercased search text. -/
def kwMatched (text_lc : String) (v : Vertical) : List String :=
  v.keywords.filter (fun kw => kw ≠ "" && containsSubstr text_lc.data (lowerStr kw).data)

/-- Keyword hit count of `v` in the lowercased search text. -/
def kwCount (text_lc : String) (v : Vertical) : Nat := (kwMatched text_lc v).length

/-- Max key `(combined score, 0 if horizontal else 1)` used by Stage B. -/
def comboKey (p : String × ℚ) : ℚ × Nat :=
  (p.2, if horizontalSlugs.contains p.1 then 0 else 1)

/-- The first element of the combined-score list with maximal key: this is
Python's `max(combined.keys(), key=…)`. -/
def pickFirst (c : String × ℚ) (rest : List (String × ℚ)) : String × ℚ :=
  argmaxFirst comboKey c rest

/-- Rounding to four decimal places (`round(x, 4)`). -/
def round4 (q : ℚ) : ℚ := ((round (q * 10000) : ℤ) : ℚ) / 10000

/-- Descending-by-similarity order for the explanation's top-3 list. -/
def simGE (a b : String × ℚ) : Prop := b.2 ≤ a.2

instance : DecidableRel simGE := fun a b => inferInstanceAs (Decidable (b.2 ≤ a.2))

/-- The top-3 embedding similarities, descending
(`np.argsort(sims)[-3:][::-1]`; tie order among equal similarities is
unspecified in NumPy and modelled as stable). -/
def embedTop (simPairs : List (String × ℚ)) : List (String × ℚ) :=
  (List.insertionSort simGE simPairs).take 3

/-- The combined ensemble score of one vertical:
`0.65 * similarity + 0.35 * (min(count, 3) / 3)`. -/
def comboScore (E : String → List ℚ) (text text_lc : String) (v : Vertical) : ℚ :=
  65/100 * dot (E text) (E (protoText v))
    + 35/100 * (((min (kwCount text_lc v) 3 : ℕ) : ℚ) / 3)

/-- `classify_product_vertical` from `product_verticals.py`: Stage A
(structured rules) first, else the keyword+embedding ensemble.  The
process-global prototype table `_PROTO_SLUGS`/`_PROTO_VECS` is one row per
catalog entry, in catalog order; `combined` is keyed in that order
(slugs are distinct in the deployed catalog, so the dict is this
association list). -/
def classify_product_vertical (catalog : List Vertical) (E : String → List ℚ)
    (source title content labels_csv project : String) : VResult :=
  let r := rule_based_vertical catalog source labels_csv project
  if pyTruthy r.slug then r
  else
    let text := ensembleText source title content labels_csv project
    let text_lc := lowerStr text
    let simPairs : List (String × ℚ) :=
      catalog.map (fun v => (v.slug, dot (E text) (E (protoText v))))
    let combined : List (String × ℚ) :=
      catalog.map (fun v => (v.slug, comboScore E text text_lc v))
    match combined with
    | [] => ⟨none, none, 0, .noSignal⟩
    | c :: rest =>
      let best := pickFirst c rest
      let conf := max (1/2) (min (19/20) (11/20 + 2/5 * best.2))
      ⟨some best.1, (catalog.find? (fun v => v.slug == best.1)).map (fun v => v.name),
        conf,
        .ensemble (((catalog.find? (fun v => v.slug == best.1)).map
            (kwMatched text_lc)).getD [])
          (catalog.filterMap (fun v =>
            if kwCount text_lc v ≠ 0 then some (v.slug, kwCount text_lc v) else none))
          ((embedTop simPairs).map (fun p => (p.1, round4 p.2)))
          (best.1, best.2)⟩

/-! ## Order lemmas for the `(confidence, flag)` keys -/

theorem keyLE_refl (a : ℚ × Nat) : keyLE a a := Or.inr ⟨rfl, le_refl _⟩

theorem keyLE_trans {a b c : ℚ × Nat} (h1 : keyLE a b) (h2 : keyLE b c) : keyLE a c := by
  rcases h1 with h1 | ⟨e1, l1⟩ <;> rcases h2 with h2 | ⟨e2, l2⟩
  · exact Or.inl (h1.trans h2)
  · exact Or.inl (e2 ▸ h1)
  · exact Or.inl (e1 ▸ h2)
  · exact Or.inr ⟨e1.trans e2, l1.trans l2⟩

theorem keyLT_le {a b : ℚ × Nat} (h : keyLT a b) : keyLE a b := by
  rcases h with h | ⟨e, l⟩
  · exact Or.inl h
  · exact Or.inr ⟨e, le_of_lt l⟩

theorem not_keyLE_of_keyLT {a b : ℚ × Nat} (h : keyLT a b) : ¬ keyLE b a := by
  intro hle
  rcases h with h | ⟨e, l⟩ <;> rcases hle with h' | ⟨e', l'⟩
  · exact absurd (h.trans h') (lt_irrefl _)
  · exact absurd h (e' ▸ lt_irrefl _)
  · exact absurd h' (e ▸ lt_irrefl _)
  · exact absurd (l.trans_le l') (lt_irrefl _)

theorem keyLE_of_not_keyLT {a b : ℚ × Nat} (h : ¬ keyLT a b) : keyLE b a := by
  unfold keyLT at h
  push_neg at h
  rcases lt_or_eq_of_le h.1 with h1 | h1
  · exact Or.inl h1
  · exact Or.inr ⟨h1, h.2 h1.symm⟩

theorem keyLE_total (a b : ℚ × Nat) : keyLE a b ∨ keyLE b a := by
  by_cases h : keyLT a b
  · exact Or.inl (keyLT_le h)
  · exact Or.inr (keyLE_of_not_keyLT h)

theorem keyLE_fst {a b : ℚ × Nat} (h : keyLE a b) : a.1 ≤ b.1 := by
  rcases h with h | ⟨e, _⟩
  · exact le_of_lt h
  · exact le_of_eq e

/-! ## Properties of the argmax folds -/

theorem argmaxLast_mem {α : Type} (key : α → ℚ × Nat) :
    ∀ (rest : List α) (c : α), argmaxLast key c rest ∈ c :: rest := by
  intro rest
  induction rest with
  | nil => intro c; exact List.mem_singleton.mpr rfl
  | cons y t ih =>
    intro c
    have hstep : argmaxLast key c (y :: t)
        = argmaxLast key (if keyLE (key c) (key y) then y else c) t := rfl
    rw [hstep]
    by_cases h : keyLE (key c) (key y)
    · rw [if_pos h]
      exact List.mem_cons_of_mem c (ih y)
    · rw [if_neg h]
      rcases List.mem_cons.mp (ih c) with h1 | h2
      · rw [h1]; exact List.mem_cons_self _ _
      · exact List.mem_cons_of_mem c (List.mem_cons_of_mem y h2)

theorem argmaxLast_ge {α : Type} (key : α → ℚ × Nat) :
    ∀ (rest : List α) (c x : α), x ∈ c :: rest →
      keyLE (key x) (key (argmaxLast key c rest)) := by
  intro rest
  induction rest with
  | nil =>
    intro c x hx
    rcases List.mem_singleton.mp hx with rfl
    exact keyLE_refl _
  | cons y t ih =>
    intro c x hx
    have hstep : argmaxLast key c (y :: t)
        = argmaxLast key (if keyLE (key c) (key y) then y else c) t := rfl
    rw [hstep]
    set acc := if keyLE (key c) (key y) then y else c with hacc
    have hca : keyLE (key c) (key acc) := by
      rw [hacc]; split_ifs with h
      · exact h
      · exact keyLE_refl _
    have hya : keyLE (key y) (key acc) := by
      rw [hacc]; split_ifs with h
      · exact keyLE_refl _
      · rcases keyLE_total (key c) (key y) with h1 | h1
        · exact absurd h1 h
        · exact h1
    have hbest : keyLE (key acc) (key (argmaxLast key acc t)) :=
      ih acc acc (List.mem_cons_self _ _)
    rcases List.mem_cons.mp hx with rfl | hx'
    · exact keyLE_trans hca hbest
    · rcases List.mem_cons.mp hx' with rfl | hx''
      · exact keyLE_trans hya hbest
      · exact ih acc x (List.mem_cons_of_mem acc hx'')

theorem argmaxLast_eq_of_max {α : Type} (key : α → ℚ × Nat) (c₀ : α) :
    ∀ (rest : List α) (c : α),
      (∀ x ∈ c :: rest, x = c₀ ∨ keyLT (key x) (key c₀)) →
      (c = c₀ ∨ c₀ ∈ rest) →
      argmaxLast key c rest = c₀ := by
  intro rest
  induction rest with
  | nil =>
    intro c _ h2
    rcases h2 with h2 | h2
    · exact h2
    · exact absurd h2 (List.not_mem_nil c₀)
  | cons y t ih =>
    intro c h1 h2
    have hstep : argmaxLast key c (y :: t)
        = argmaxLast key (if keyLE (key c) (key y) then y else c) t := rfl
    rw [hstep]
    have hc : c = c₀ ∨ keyLT (key c) (key c₀) := h1 c (List.mem_cons_self _ _)
    have hy : y = c₀ ∨ keyLT (key y) (key c₀) :=
      h1 y (List.mem_cons_of_mem _ (List.mem_cons_self _ _))
    have hsub : ∀ x ∈ (if keyLE (key c) (key y) then y else c) :: t,
        x = c₀ ∨ keyLT (key x) (key c₀) := by
      intro x hx
      rcases List.mem_cons.mp hx with rfl | hx'
      · split_ifs with h
        · exact hy
        · exact hc
      · exact h1 x (List.mem_cons_of_mem _ (List.mem_cons_of_mem _ hx'))
    have hinit : (if keyLE (key c) (key y) then y else c) = c₀ ∨ c₀ ∈ t := by
      rcases h2 with h2 | h2
      · by_cases h : keyLE (key c) (key y)
        · rw [if_pos h]
          rcases hy with hy' | hy'
          · exact Or.inl hy'
          · exact absurd (h2 ▸ h) (not_keyLE_of_keyLT hy')
        · rw [if_neg h]
          exact Or.inl h2
      · rcases List.mem_cons.mp h2 with h2' | h2'
        · by_cases h : keyLE (key c) (key y)
          · rw [if_pos h]
            exact Or.inl h2'.symm
          · exfalso
            apply h
            rcases hc with hc' | hc'
            · rw [hc', ← h2']
              exact keyLE_refl _
            · rw [← h2']
              exact keyLT_le hc'
        · exact Or.inr h2'
    exact ih _ hsub hinit

theorem argmaxFirst_mem {α : Type} (key : α → ℚ × Nat) :
    ∀ (rest : List α) (c : α), argmaxFirst key c rest ∈ c :: rest := by
  intro rest
  induction rest with
  | nil => intro c; exact List.mem_singleton.mpr rfl
  | cons y t ih =>
    intro c
    have hstep : argmaxFirst key c (y :: t)
        = argmaxFirst key (if keyLT (key c) (key y) then y else c) t := rfl
    rw [hstep]
    by_cases h : keyLT (key c) (key y)
    · rw [if_pos h]
      exact List.mem_cons_of_mem c (ih y)
    · rw [if_neg h]
      rcases List.mem_cons.mp (ih c) with h1 | h2
      · rw [h1]; exact List.mem_cons_self _ _
      · exact List.mem_cons_of_mem c (List.mem_cons_of_mem y h2)

theorem argmaxFirst_ge {α : Type} (key : α → ℚ × Nat) :
    ∀ (rest : List α) (c x : α), x ∈ c :: rest →
      keyLE (key x) (key (argmaxFirst key c rest)) := by
  intro rest
  induction rest with
  | nil =>
    intro c x hx
    rcases List.mem_singleton.mp hx with rfl
    exact keyLE_refl _
  | cons y t ih =>
    intro c x hx
    have hstep : argmaxFirst key c (y :: t)
        = argmaxFirst key (if keyLT (key c) (key y) then y else c) t := rfl
    rw [hstep]
    set acc := if keyLT (key c) (key y) then y else c with hacc
    have hca : keyLE (key c) (key acc) := by
      rw [hacc]; split_ifs with h
      · exact keyLT_le h
      · exact keyLE_refl _
    have hya : keyLE (key y) (key acc) := by
      rw [hacc]; split_ifs with h
      · exact keyLE_refl _
      · exact keyLE_of_not_keyLT h
    have hbest : keyLE (key acc) (key (argmaxFirst key acc t)) :=
      ih acc acc (List.mem_cons_self _ _)
    rcases List.mem_cons.mp hx with rfl | hx'
    · exact keyLE_trans hca hbest
    · rcases List.mem_cons.mp hx' with rfl | hx''
      · exact keyLE_trans hya hbest
      · exact ih acc x (List.mem_cons_of_mem acc hx'')

/-! ## Stage-A candidate lemmas -/

theorem candFor_slug_name_conf {source : String} {labels : List String}
    {pkey : String} {v : Vertical} {c : Cand}
    (h : candFor source labels pkey v = some c) :
    c.slug = v.slug ∧ c.name = v.name ∧ (c.conf = 19/20 ∨ c.conf = 9/10) := by
  unfold candFor at h
  split_ifs at h with h1 h2 h3
  · obtain rfl := Option.some.inj h
    exact ⟨rfl, rfl, Or.inl rfl⟩
  · obtain rfl := Option.some.inj h
    exact ⟨rfl, rfl, Or.inr rfl⟩
  · obtain rfl := Option.some.inj h
    exact ⟨rfl, rfl, Or.inr rfl⟩

theorem candFor_conf_of_not_project {source : String} {labels : List String}
    {pkey : String} {v : Vertical} {c : Cand}
    (hnp : (v.jira_projects.map upperStr).contains pkey = false)
    (h : candFor source labels pkey v = some c) : c.conf = 9/10 := by
  unfold candFor at h
  rw [hnp] at h
  simp only [Bool.and_false, Bool.false_eq_true, if_false] at h
  split_ifs at h with h1 h2
  · obtain rfl := Option.some.inj h
    exact rfl
  · obtain rfl := Option.some.inj h
    exact rfl

theorem candFor_project_eq {labels : List String} {pkey : String} {v : Vertical}
    (hp : pkey ≠ "") (hmem : pkey ∈ v.jira_projects.map upperStr) :
    candFor "jira" labels pkey v
      = some ⟨v.slug, v.name, 19/20, .jiraProject pkey⟩ := by
  have h1 : (pkey != "") = true := by simpa using hp
  have h2 : (v.jira_projects.map upperStr).contains pkey = true := by simpa using hmem
  have hcond : ("jira" == "jira" && pkey != "" && (v.jira_projects.map upperStr).contains pkey) = true := by
    rw [h1, h2]
    rfl
  unfold candFor
  rw [if_pos hcond]

/-- A nonempty string stays nonempty under `upperStr`. -/
theorem upperStr_ne_empty {s : String} (h : s ≠ "") : upperStr s ≠ "" := by
  obtain ⟨d⟩ := s
  intro hEq
  apply h
  have hdata : d.map Char.toUpper = [] := congrArg String.data hEq
  have hd : d = [] := List.map_eq_nil_iff.mp hdata
  rw [hd]

/-- Stage A on a jira ticket whose (stripped, uppercased) project key lies in
exactly one catalog entry's `jira_projects` returns that entry with
confidence `0.95` and the `jira_project` rule explanation. -/
theorem rule_based_jira_project (labels_csv project : String) (v : Vertical)
    (hv : v ∈ VERTICALS)
    (huniq : ∀ w ∈ VERTICALS,
      w = v ∨ upperStr (pyStrip project) ∉ w.jira_projects.map upperStr)
    (hp : pyStrip project ≠ "")
    (hmem : upperStr (pyStrip project) ∈ v.jira_projects.map upperStr) :
    rule_based_vertical VERTICALS "jira" labels_csv project
      = ⟨some v.slug, some v.name, 19/20,
          .jiraProject (upperStr (pyStrip project))⟩ := by
  simp only [rule_based_vertical]
  set pkey := upperStr (pyStrip project) with hpk
  set labels := pySplitStripLower labels_csv with hlb
  set c₀ : Cand := ⟨v.slug, v.name, 19/20, .jiraProject pkey⟩ with hc₀
  have hpkne : pkey ≠ "" := upperStr_ne_empty hp
  have hcand : candFor "jira" labels pkey v = some c₀ := candFor_project_eq hpkne hmem
  have hothers : ∀ w ∈ VERTICALS, ∀ cc : Cand,
      candFor "jira" labels pkey w = some cc →
      cc = c₀ ∨ keyLT (candKey cc) (candKey c₀) := by
    intro w hw cc hcc
    rcases huniq w hw with rfl | hnp
    · rw [hcand] at hcc
      exact Or.inl (Option.some.inj hcc).symm
    · right
      have hconf : cc.conf = 9/10 :=
        candFor_conf_of_not_project (by simpa using hnp) hcc
      left
      show cc.conf < c₀.conf
      rw [hconf, hc₀]
      norm_num
  have hnonempty : c₀ ∈ VERTICALS.filterMap (candFor "jira" labels pkey) :=
    List.mem_filterMap.mpr ⟨v, hv, hcand⟩
  rcases hsplit : VERTICALS.filterMap (candFor "jira" labels pkey) with _ | ⟨c, rest⟩
  · rw [hsplit] at hnonempty
    exact absurd hnonempty (List.not_mem_nil c₀)
  · rw [hsplit] at hnonempty
    have hbest : pickLast c rest = c₀ := by
      apply argmaxLast_eq_of_max
      · intro x hx
        rw [← hsplit] at hx
        obtain ⟨w, hw, hcw⟩ := List.mem_filterMap.mp hx
        exact hothers w hw x hcw
      · rcases List.mem_cons.mp hnonempty with h' | h'
        · exact Or.inl h'.symm
        · exact Or.inr h'
    show VResult.mk (some (pickLast c rest).slug) (some (pickLast c rest).name)
        (pickLast c rest).conf (pickLast c rest).exp = _
    rw [hbest]

/-- When Stage A fires, `classify_product_vertical` short-circuits to the
Stage-A result, for every embedding function. -/
theorem classify_of_rule_match (catalog : List Vertical) (E : String → List ℚ)
    (source title content labels_csv project : String)
    (h : pyTruthy (rule_based_vertical catalog source labels_csv project).slug = true) :
    classify_product_vertical catalog E source title content labels_csv project
      = rule_based_vertical catalog source labels_csv project := by
  simp [classify_product_vertical, h]

/-- C1: whenever a Stage-A structured rule fires, `classify_product_vertical`
returns the Stage-A result for every embedding function (so the
keyword+embedding ensemble is never consulted); and a jira ticket whose
project key appears in some catalog vertical's `jira_projects` list is
returned as exactly that vertical with confidence exactly `0.95`. -/
theorem claim_c1 :
    (∀ (catalog : List Vertical) (E : String → List ℚ)
        (source title content labels_csv project : String),
      pyTruthy (rule_based_vertical catalog source labels_csv project).slug = true →
      classify_product_vertical catalog E source title content labels_csv project
        = rule_based_vertical catalog source labels_csv project) ∧
    (∀ (E : String → List ℚ) (title content labels_csv project : String)
        (v : Vertical),
      v ∈ VERTICALS → pyStrip project ≠ "" →
      upperStr (pyStrip project) ∈ v.jira_projects.map upperStr →
      classify_product_vertical VERTICALS E "jira" title content labels_csv project
        = ⟨some v.slug, some v.name, 19/20,
            .jiraProject (upperStr (pyStrip project))⟩) := by
  refine ⟨classify_of_rule_match, ?_⟩
  intro E title content labels_csv project v hv hp hmem
  have master : ∀ v₁ ∈ VERTICALS, ∀ v₂ ∈ VERTICALS,
      ∀ p₁ ∈ v₁.jira_projects, ∀ p₂ ∈ v₂.jira_projects,
      upperStr p₁ = upperStr p₂ → v₁ = v₂ := by decide
  have huniq : ∀ w ∈ VERTICALS,
      w = v ∨ upperStr (pyStrip project) ∉ w.jira_projects.map upperStr := by
    intro w hw
    by_cases hcase : upperStr (pyStrip project) ∈ w.jira_projects.map upperStr
    · left
      obtain ⟨p₁, hp₁, e₁⟩ := List.mem_map.mp hcase
      obtain ⟨p₂, hp₂, e₂⟩ := List.mem_map.mp hmem
      exact master w hw v hv p₁ hp₁ p₂ hp₂ (e₁.trans e₂.symm)
    · exact Or.inr hcase
  have hrb := rule_based_jira_project labels_csv project v hv huniq hp hmem
  have hslug : v.slug ≠ "" := by
    have hall : ∀ w ∈ VERTICALS, w.slug ≠ "" := by decide
    exact hall v hv
  have htr : pyTruthy (rule_based_vertical VERTICALS "jira" labels_csv project).slug = true := by
    rw [hrb]
    simpa [pyTruthy] using hslug
  rw [classify_of_rule_match VERTICALS E "jira" title content labels_csv project htr, hrb]

/-- Witness for C1 at the concrete jira ticket with project "FX": the rule
fires, Stage B is skipped for the trivial embedding, and the result is the
`fx-service` vertical at confidence `0.95`. -/
theorem claim_c1_witness :
    pyTruthy (rule_based_vertical VERTICALS "jira" "" "FX").slug = true ∧
    classify_product_vertical VERTICALS (fun _ => []) "jira" "t" "c" "" "FX"
      = rule_based_vertical VERTICALS "jira" "" "FX" ∧
    classify_product_vertical VERTICALS (fun _ => []) "jira" "t" "c" "" "FX"
      = ⟨some "fx-service", some "FX Service", 19/20, .jiraProject "FX"⟩ := by
  refine ⟨by decide, claim_c1.1 VERTICALS (fun _ => []) "jira" "t" "c" "" "FX" (by decide), ?_⟩
  have h := claim_c1.2 (fun _ => []) "t" "c" "" "FX"
    ⟨"fx-service", "FX Service",
      ["fx", "convert", "conversion", "quote", "rate", "swap", "order",
       "fx rate", "fx quote"],
      ["FX"], ["fx", "rates", "quote"], ["fx", "rate", "quote"]⟩
    (by decide) (by decide) (by decide)
  simpa using h

/-- C5: when Stage A has produced no match and, for a general catalog, no
vertical has any signal (the keyword-hit map is empty and the similarity
list is empty), `classify_product_vertical` returns no assignment:
slug `none`, confidence `0`, explanation `no_signal`. -/
theorem claim_c5 (catalog : List Vertical) (E : String → List ℚ)
    (source title content labels_csv project : String)
    (hrule : pyTruthy (rule_based_vertical catalog source labels_csv project).slug = false)
    (hkw : catalog.filterMap (fun v =>
      if kwCount (lowerStr (ensembleText source title content labels_csv project)) v ≠ 0
      then some (v.slug,
        kwCount (lowerStr (ensembleText source title content labels_csv project)) v)
      else none) = [])
    (hsims : catalog.map (fun v =>
      (v.slug, dot (E (ensembleText source title content labels_csv project))
        (E (protoText v)))) = []) :
    classify_product_vertical catalog E source title content labels_csv project
      = ⟨none, none, 0, .noSignal⟩ := by
  have hcat : catalog = [] := List.map_eq_nil_iff.mp hsims
  subst hcat
  simp [classify_product_vertical, hrule]

/-- Witness for C5 at the empty catalog and a source with no structured
rules. -/
theorem claim_c5_witness :
    pyTruthy (rule_based_vertical [] "slack" "" "").slug = false ∧
    ([] : List Vertical).filterMap (fun v =>
      if kwCount (lowerStr (ensembleText "slack" "t" "c" "" "")) v ≠ 0
      then some (v.slug, kwCount (lowerStr (ensembleText "slack" "t" "c" "" "")) v)
      else none) = [] ∧
    classify_product_vertical [] (fun _ => []) "slack" "t" "c" "" ""
      = ⟨none, none, 0, .noSignal⟩ :=
  ⟨by decide, rfl, claim_c5 [] (fun _ => []) "slack" "t" "c" "" "" (by decide) rfl rfl⟩

/-- Stage-B characterisation: with no Stage-A match, the result is a catalog
vertical of maximal combined score, horizontal verticals lose ties, and the
confidence is the clamped affine function of the best score. -/
theorem stageB_spec (E : String → List ℚ) (source title content labels_csv project : String)
    (hrule : pyTruthy (rule_based_vertical VERTICALS source labels_csv project).slug = false) :
    ∃ best ∈ VERTICALS,
      (classify_product_vertical VERTICALS E source title content labels_csv project).slug
        = some best.slug ∧
      (classify_product_vertical VERTICALS E source title content labels_csv project).conf
        = max (1/2) (min (19/20) (11/20 + 2/5 *
            comboScore E (ensembleText source title content labels_csv project)
              (lowerStr (ensembleText source title content labels_csv project)) best)) ∧
      (∀ v ∈ VERTICALS,
        comboScore E (ensembleText source title content labels_csv project)
          (lowerStr (ensembleText source title content labels_csv project)) v ≤
        comboScore E (ensembleText source title content labels_csv project)
          (lowerStr (ensembleText source title content labels_csv project)) best) ∧
      (∀ v ∈ VERTICALS,
        comboScore E (ensembleText source title content labels_csv project)
          (lowerStr (ensembleText source title content labels_csv project)) v =
        comboScore E (ensembleText source title content labels_csv project)
          (lowerStr (ensembleText source title content labels_csv project)) best →
        v.slug ∉ horizontalSlugs → best.slug ∉ horizontalSlugs) ∧
      1/2 ≤ (classify_product_vertical VERTICALS E source title content labels_csv project).conf ∧
      (classify_product_vertical VERTICALS E source title content labels_csv project).conf ≤ 19/20 := by
  have hne : ¬ (pyTruthy (rule_based_vertical VERTICALS source labels_csv project).slug = true) := by
    rw [hrule]
    simp
  simp only [classify_product_vertical]
  rw [if_neg hne]
  set M := VERTICALS.map (fun v =>
    (v.slug, comboScore E (ensembleText source title content labels_csv project)
      (lowerStr (ensembleText source title content labels_csv project)) v)) with hMdef
  obtain ⟨c, rest, hM⟩ : ∃ c rest, M = c :: rest := by
    rcases hMc : M with _ | ⟨c, rest⟩
    · exfalso
      have hV : VERTICALS = [] := List.map_eq_nil_iff.mp (hMdef ▸ hMc)
      exact absurd hV (by decide)
    · exact ⟨c, rest, rfl⟩
  rw [hM]
  dsimp only
  have hmem0 : pickFirst c rest ∈ c :: rest := argmaxFirst_mem comboKey rest c
  rw [← hM, hMdef] at hmem0
  obtain ⟨bestV, hbestV, hfb⟩ := List.mem_map.mp hmem0
  have hketa : ∀ v ∈ VERTICALS,
      keyLE (comboKey (v.slug,
        comboScore E (ensembleText source title content labels_csv project)
          (lowerStr (ensembleText source title content labels_csv project)) v))
        (comboKey (bestV.slug,
          comboScore E (ensembleText source title content labels_csv project)
            (lowerStr (ensembleText source title content labels_csv project)) bestV)) := by
    intro v hv
    have hvm : (v.slug,
        comboScore E (ensembleText source title content labels_csv project)
          (lowerStr (ensembleText source title content labels_csv project)) v) ∈ M := by
      rw [hMdef]
      exact List.mem_map_of_mem _ hv
    rw [hM] at hvm
    have hle := argmaxFirst_ge comboKey rest c _ hvm
    have hfb' : (bestV.slug,
        comboScore E (ensembleText source title content labels_csv project)
          (lowerStr (ensembleText source title content labels_csv project)) bestV)
        = argmaxFirst comboKey c rest := hfb
    rw [← hfb'] at hle
    exact hle
  refine ⟨bestV, hbestV, ?_, ?_, ?_, ?_, ?_, ?_⟩
  · rw [← hfb]
  · rw [← hfb]
  · intro v hv
    exact keyLE_fst (hketa v hv)
  · intro v hv heq hnh
    have hle := hketa v hv
    simp only [comboKey] at hle
    rcases hle with hlt | ⟨_, hfl⟩
    · rw [heq] at hlt
      exact absurd hlt (lt_irrefl _)
    · have hcv : horizontalSlugs.contains v.slug = false := by
        simpa using hnh
      rw [hcv] at hfl
      by_cases hb : bestV.slug ∈ horizontalSlugs
      · have hcb : horizontalSlugs.contains bestV.slug = true := by simpa using hb
        rw [hcb] at hfl
        simp at hfl
      · exact hb
  · rw [← hfb]
    exact le_max_left _ _
  · rw [← hfb]
    exact max_le (by norm_num) (min_le_left _ _)

/-- C2: whenever Stage A produces no match, Stage B scores every catalog
vertical as `0.65*similarity + 0.35*(min(hits,3)/3)`, returns a vertical
with maximal combined score (ties broken against the horizontal verticals)
and confidence `max(0.5, min(0.95, 0.55 + 0.4*best_score))`, which always
lies in `[0.5, 0.95]`. -/
theorem claim_c2 (E : String → List ℚ) (source title content labels_csv project : String)
    (hrule : pyTruthy (rule_based_vertical VERTICALS source labels_csv project).slug = false) :
    ∃ best ∈ VERTICALS,
      (classify_product_vertical VERTICALS E source title content labels_csv project).slug
        = some best.slug ∧
      (classify_product_vertical VERTICALS E source title content labels_csv project).conf
        = max (1/2) (min (19/20) (11/20 + 2/5 *
            comboScore E (ensembleText source title content labels_csv project)
              (lowerStr (ensembleText source title content labels_csv project)) best)) ∧
      (∀ v ∈ VERTICALS,
        comboScore E (ensembleText source title content labels_csv project)
          (lowerStr (ensembleText source title content labels_csv project)) v ≤
        comboScore E (ensembleText source title content labels_csv project)
          (lowerStr (ensembleText source title content labels_csv project)) best) ∧
      (∀ v ∈ VERTICALS,
        comboScore E (ensembleText source title content labels_csv project)
          (lowerStr (ensembleText source title content labels_csv project)) v =
        comboScore E (ensembleText source title content labels_csv project)
          (lowerStr (ensembleText source title content labels_csv project)) best →
        v.slug ∉ horizontalSlugs → best.slug ∉ horizontalSlugs) ∧
      1/2 ≤ (classify_product_vertical VERTICALS E source title content labels_csv project).conf ∧
      (classify_product_vertical VERTICALS E source title content labels_csv project).conf ≤ 19/20 :=
  stageB_spec E source title content labels_csv project hrule

/-- Witness for C2 at a concrete slack ticket (no structured rules apply)
and the trivial embedding. -/
theorem claim_c2_witness :
    pyTruthy (rule_based_vertical VERTICALS "slack" "" "").slug = false ∧
    (∃ best ∈ VERTICALS,
      (classify_product_vertical VERTICALS (fun _ => []) "slack" "hello" "" "" "").slug
        = some best.slug ∧
      (classify_product_vertical VERTICALS (fun _ => []) "slack" "hello" "" "" "").conf
        = max (1/2) (min (19/20) (11/20 + 2/5 *
            comboScore (fun _ => []) (ensembleText "slack" "hello" "" "" "")
              (lowerStr (ensembleText "slack" "hello" "" "" "")) best)) ∧
      (∀ v ∈ VERTICALS,
        comboScore (fun _ => []) (ensembleText "slack" "hello" "" "" "")
          (lowerStr (ensembleText "slack" "hello" "" "" "")) v ≤
        comboScore (fun _ => []) (ensembleText "slack" "hello" "" "" "")
          (lowerStr (ensembleText "slack" "hello" "" "" "")) best) ∧
      (∀ v ∈ VERTICALS,
        comboScore (fun _ => []) (ensembleText "slack" "hello" "" "" "")
          (lowerStr (ensembleText "slack" "hello" "" "" "")) v =
        comboScore (fun _ => []) (ensembleText "slack" "hello" "" "" "")
          (lowerStr (ensembleText "slack" "hello" "" "" "")) best →
        v.slug ∉ horizontalSlugs → best.slug ∉ horizontalSlugs) ∧
      1/2 ≤ (classify_product_vertical VERTICALS (fun _ => []) "slack" "hello" "" "" "").conf ∧
      (classify_product_vertical VERTICALS (fun _ => []) "slack" "hello" "" "" "").conf ≤ 19/20) :=
  ⟨by decide, claim_c2 (fun _ => []) "slack" "hello" "" "" "" (by decide)⟩

/-! ## Tickets and stores (`backend/db.py`)

A `Ticket` row as the insight pipeline reads it; nullable columns are
`Option`. Stores are maps from ticket id, and the SQLAlchemy upserts are
pointwise overwrites. -/

structure TicketRec where
  id : Nat
  source : Option String
  title : Option String
  content : Option String
  status : Option String
  labels : Option String
  project : Option String
  priority : Option String
  type : Option String
deriving DecidableEq

/-- A `TicketProductVertical` row. -/
structure Assignment where
  vertical_slug : String
  vertical_name : String
  confidence : ℚ
  explanation : Explanation
deriving DecidableEq

/-- The `ticket_product_verticals` table, keyed by ticket id. -/
def VertStore : Type := Nat → Option Assignment

/-- `upsert_ticket_vertical` from `backend/db.py`: insert or overwrite the
row for `ticket_id` (`float(confidence or 0.0)` is the identity on the
rational confidences the callers pass). -/
def upsert_ticket_vertical (store : VertStore) (ticket_id : Nat)
    (vertical_slug vertical_name : String) (confidence : ℚ)
    (explanation : Explanation) : VertStore :=
  fun i => if i = ticket_id
    then some ⟨vertical_slug, vertical_name, confidence, explanation⟩
    else store i

/-- A `TicketGoldLabel` row. -/
structure GoldRec where
  vertical_slug : String
  vertical_name : String
  reviewer : String
  note : String
deriving DecidableEq

/-- The `ticket_gold_labels` table, keyed by ticket id. -/
def GoldStore : Type := Nat → Option GoldRec

/-- `upsert_gold_label` from `backend/db.py`: on an existing row the slug and
name are overwritten but `reviewer`/`note` keep the old value when the new
one is falsy (`reviewer or existing.reviewer`). -/
def upsert_gold_label (store : GoldStore) (ticket_id : Nat)
    (vertical_slug vertical_name reviewer note : String) : GoldStore :=
  fun i => if i = ticket_id then
      some (match store ticket_id with
        | some g => ⟨vertical_slug, vertical_name,
            if reviewer = "" then g.reviewer else reviewer,
            if note = "" then g.note else note⟩
        | none => ⟨vertical_slug, vertical_name, reviewer, note⟩)
    else store i

/-! ## Persistence callers (`backend/services/insights.py`,
`backend/services/verticals.py`) -/

/-- The vertical classification both callers run on a ticket row
(`classify_product_vertical(t.source or "", t.title or "", t.content or "",
t.labels or "", t.project or "")`). -/
def classifyTicketVertical (E : String → List ℚ) (t : TicketRec) : VResult :=
  classify_product_vertical VERTICALS E (t.source.getD "") (t.title.getD "")
    (t.content.getD "") (t.labels.getD "") (t.project.getD "")

/-- The persistence guard `if v_slug and v_conf >= 0.80`. -/
def vertWriteCond (E : String → List ℚ) (t : TicketRec) : Prop :=
  pyTruthy (classifyTicketVertical E t).slug = true ∧
    4/5 ≤ (classifyTicketVertical E t).conf

instance (E : String → List ℚ) (t : TicketRec) : Decidable (vertWriteCond E t) :=
  inferInstanceAs (Decidable (_ ∧ _))

/-- The store effect of classifying one ticket: upsert the assignment when
the guard holds, otherwise leave the store untouched. -/
def vertWrite (E : String → List ℚ) (store : VertStore) (t : TicketRec) : VertStore :=
  if vertWriteCond E t then
    upsert_ticket_vertical store t.id ((classifyTicketVertical E t).slug.getD "")
      ((classifyTicketVertical E t).name.getD "")
      (classifyTicketVertical E t).conf (classifyTicketVertical E t).exp
  else store

/-- One iteration of the loop in `_classify_and_count`: refresh `t.type`,
bump the type counter, and conditionally persist the vertical. -/
def classifyStep (E : String → List ℚ)
    (acc : (String → Nat) × VertStore × List TicketRec) (t : TicketRec) :
    (String → Nat) × VertStore × List TicketRec :=
  let ty := classify_ticket (t.source.getD "") (t.title.getD "")
    (t.content.getD "") (t.labels.getD "") (t.status.getD "")
  (fun s => if s = ty then acc.1 s + 1 else acc.1 s,
   vertWrite E acc.2.1 t,
   acc.2.2 ++ [{ t with type := some ty }])

/-- `_classify_and_count` from `backend/services/insights.py`: returns the
type counts, the vertical store after the conditional upserts, and the
tickets with their refreshed `type` (the in-place mutation of the rows). -/
def classifyAndCount (E : String → List ℚ) (tickets : List TicketRec)
    (store : VertStore) : (String → Nat) × VertStore × List TicketRec :=
  tickets.foldl (classifyStep E) (fun _ => 0, store, [])

/-- One iteration of the loop in `backfill_verticals`. -/
def backfillStep (E : String → List ℚ) (acc : VertStore × Nat) (t : TicketRec) :
    VertStore × Nat :=
  if vertWriteCond E t then
    (upsert_ticket_vertical acc.1 t.id ((classifyTicketVertical E t).slug.getD "")
      ((classifyTicketVertical E t).name.getD "")
      (classifyTicketVertical E t).conf (classifyTicketVertical E t).exp,
     acc.2 + 1)
  else acc

/-- `backfill_verticals` from `backend/services/verticals.py` (the time
window restriction happens in the database query; the ticket list is the
queried set).  Returns the store plus `{"scanned": …, "labeled": …}`. -/
def backfill_verticals (E : String → List ℚ) (tickets : List TicketRec)
    (store : VertStore) : VertStore × Nat × Nat :=
  let res := tickets.foldl (backfillStep E) (store, 0)
  (res.1, tickets.length, res.2)

/-- The store part of both loops is the same fold of `vertWrite`. -/
def vertFold (E : String → List ℚ) (tickets : List TicketRec)
    (store : VertStore) : VertStore :=
  tickets.foldl (vertWrite E) store

theorem classifyAndCount_store (E : String → List ℚ) (tickets : List TicketRec)
    (store : VertStore) :
    (classifyAndCount E tickets store).2.1 = vertFold E tickets store := by
  have hgen : ∀ (l : List TicketRec) (acc : (String → Nat) × VertStore × List TicketRec),
      (l.foldl (classifyStep E) acc).2.1 = l.foldl (vertWrite E) acc.2.1 := by
    intro l
    induction l with
    | nil => intro acc; rfl
    | cons t rest ih => intro acc; exact ih (classifyStep E acc t)
  exact hgen tickets _

theorem backfill_store (E : String → List ℚ) (tickets : List TicketRec)
    (store : VertStore) :
    (backfill_verticals E tickets store).1 = vertFold E tickets store := by
  have hgen : ∀ (l : List TicketRec) (acc : VertStore × Nat),
      (l.foldl (backfillStep E) acc).1 = l.foldl (vertWrite E) acc.1 := by
    intro l
    induction l with
    | nil => intro acc; rfl
    | cons t rest ih =>
      intro acc
      have hstep : (backfillStep E acc t).1 = vertWrite E acc.1 t := by
        unfold backfillStep vertWrite
        split_ifs <;> rfl
      calc (rest.foldl (backfillStep E) (backfillStep E acc t)).1
          = rest.foldl (vertWrite E) (backfillStep E acc t).1 := ih _
        _ = rest.foldl (vertWrite E) (vertWrite E acc.1 t) := by rw [hstep]
  exact hgen tickets _

theorem vertWrite_other (E : String → List ℚ) (store : VertStore)
    (t : TicketRec) (i : Nat) (h : i ≠ t.id) :
    vertWrite E store t i = store i := by
  unfold vertWrite upsert_ticket_vertical
  split_ifs with hc
  · exact if_neg h
  · rfl

theorem vertFold_not_mem (E : String → List ℚ) :
    ∀ (tickets : List TicketRec) (store : VertStore) (i : Nat),
      i ∉ tickets.map (fun t => t.id) →
      vertFold E tickets store i = store i := by
  intro tickets
  induction tickets with
  | nil => intro store i _; rfl
  | cons t rest ih =>
    intro store i hni
    simp only [List.map_cons, List.mem_cons] at hni
    push_neg at hni
    calc vertFold E rest (vertWrite E store t) i
        = (vertWrite E store t) i := ih _ i hni.2
      _ = store i := vertWrite_other E store t i hni.1

theorem vertFold_spec (E : String → List ℚ) :
    ∀ (tickets : List TicketRec) (store : VertStore),
      (tickets.map (fun t => t.id)).Nodup →
      ∀ t ∈ tickets,
        (vertWriteCond E t →
          vertFold E tickets store t.id
            = some ⟨(classifyTicketVertical E t).slug.getD "",
                (classifyTicketVertical E t).name.getD "",
                (classifyTicketVertical E t).conf,
                (classifyTicketVertical E t).exp⟩) ∧
        (¬ vertWriteCond E t → vertFold E tickets store t.id = store t.id) := by
  intro tickets
  induction tickets with
  | nil =>
    intro store _ t ht
    exact absurd ht (List.not_mem_nil t)
  | cons u rest ih =>
    intro store hnd t ht
    simp only [List.map_cons, List.nodup_cons] at hnd
    rcases List.mem_cons.mp ht with rfl | htr
    · -- the head ticket: later iterations never touch `t.id`
      have hskip : vertFold E rest (vertWrite E store t) t.id
          = (vertWrite E store t) t.id :=
        vertFold_not_mem E rest _ t.id hnd.1
      constructor
      · intro hcond
        show vertFold E rest (vertWrite E store t) t.id = _
        rw [hskip]
        unfold vertWrite
        rw [if_pos hcond]
        unfold upsert_ticket_vertical
        rw [if_pos rfl]
      · intro hcond
        show vertFold E rest (vertWrite E store t) t.id = _
        rw [hskip]
        unfold vertWrite
        rw [if_neg hcond]
    · -- a later ticket: the head write happens at a different id
      have hne : t.id ≠ u.id := by
        intro hEq
        exact hnd.1 (hEq ▸ List.mem_map_of_mem (fun t => t.id) htr)
      have hres := ih (vertWrite E store u) hnd.2 t htr
      constructor
      · exact fun hcond => hres.1 hcond
      · intro hcond
        show vertFold E rest (vertWrite E store u) t.id = _
        rw [hres.2 hcond]
        exact vertWrite_other E store u t.id hne

/-- C3: during an insight build (`_classify_and_count`) and during vertical
backfill (`backfill_verticals`), the assignment for a ticket is written to
storage iff the classifier returned a vertical with confidence `≥ 0.80`;
for any ticket below that threshold, the stored state at that ticket is
left unchanged. -/
theorem claim_c3 (E : String → List ℚ) (tickets : List TicketRec)
    (store : VertStore) (hnd : (tickets.map (fun t => t.id)).Nodup)
    (t : TicketRec) (ht : t ∈ tickets) :
    (vertWriteCond E t →
      (classifyAndCount E tickets store).2.1 t.id
          = some ⟨(classifyTicketVertical E t).slug.getD "",
              (classifyTicketVertical E t).name.getD "",
              (classifyTicketVertical E t).conf,
              (classifyTicketVertical E t).exp⟩ ∧
      (backfill_verticals E tickets store).1 t.id
          = some ⟨(classifyTicketVertical E t).slug.getD "",
              (classifyTicketVertical E t).name.getD "",
              (classifyTicketVertical E t).conf,
              (classifyTicketVertical E t).exp⟩) ∧
    (¬ vertWriteCond E t →
      (classifyAndCount E tickets store).2.1 t.id = store t.id ∧
      (backfill_verticals E tickets store).1 t.id = store t.id) := by
  have hspec := vertFold_spec E tickets store hnd t ht
  rw [classifyAndCount_store, backfill_store]
  exact ⟨fun h => ⟨hspec.1 h, hspec.1 h⟩, fun h => ⟨hspec.2 h, hspec.2 h⟩⟩

/-- With the trivial embedding, the combined score reduces to the keyword
part alone. -/
theorem comboScore_nilE (text text_lc : String) (v : Vertical) :
    comboScore (fun _ => []) text text_lc v
      = 35/100 * (((min (kwCount text_lc v) 3 : ℕ) : ℚ) / 3) := by
  simp [comboScore, dot]

/-- With the trivial embedding, every combined score is at most `0.35`. -/
theorem comboScore_nilE_le (text text_lc : String) (v : Vertical) :
    comboScore (fun _ => []) text text_lc v ≤ 35/100 := by
  rw [comboScore_nilE]
  have h3 : ((min (kwCount text_lc v) 3 : ℕ) : ℚ) ≤ 3 := by
    exact_mod_cast min_le_right (kwCount text_lc v) 3
  have h0 : (0:ℚ) ≤ ((min (kwCount text_lc v) 3 : ℕ) : ℚ) := by positivity
  linarith

set_option maxRecDepth 4000 in
/-- Witness for C3: a jira ticket matching the FX project rule (confidence
`0.95 ≥ 0.80`) is persisted by both callers; a slack ticket classified by
the ensemble (confidence at most `0.69 < 0.80` under the trivial
embedding) leaves the (empty) store unchanged. -/
theorem claim_c3_witness :
    (vertWriteCond (fun _ => []) ⟨1, some "jira", some "t", some "c", none, none, some "FX", none, none⟩ ∧
      (classifyAndCount (fun _ => [])
        [⟨1, some "jira", some "t", some "c", none, none, some "FX", none, none⟩]
        (fun _ => none)).2.1 1
        = some ⟨"fx-service", "FX Service", 19/20, .jiraProject "FX"⟩ ∧
      (backfill_verticals (fun _ => [])
        [⟨1, some "jira", some "t", some "c", none, none, some "FX", none, none⟩]
        (fun _ => none)).1 1
        = some ⟨"fx-service", "FX Service", 19/20, .jiraProject "FX"⟩) ∧
    (¬ vertWriteCond (fun _ => []) ⟨2, some "slack", some "hello", some "", none, none, none, none, none⟩ ∧
      (classifyAndCount (fun _ => [])
        [⟨2, some "slack", some "hello", some "", none, none, none, none, none⟩]
        (fun _ => none)).2.1 2 = none ∧
      (backfill_verticals (fun _ => [])
        [⟨2, some "slack", some "hello", some "", none, none, none, none, none⟩]
        (fun _ => none)).1 2 = none) := by
  constructor
  · have hrb := rule_based_jira_project "" "FX"
      ⟨"fx-service", "FX Service",
        ["fx", "convert", "conversion", "quote", "rate", "swap", "order",
         "fx rate", "fx quote"],
        ["FX"], ["fx", "rates", "quote"], ["fx", "rate", "quote"]⟩
      (by decide) (by decide) (by decide) (by decide)
    have htr : pyTruthy (rule_based_vertical VERTICALS "jira" "" "FX").slug = true := by
      rw [hrb]
      decide
    have hskip := classify_of_rule_match VERTICALS (fun _ => []) "jira" "t" "c" "" "FX" htr
    have hcv : classifyTicketVertical (fun _ => [])
        ⟨1, some "jira", some "t", some "c", none, none, some "FX", none, none⟩
        = ⟨some "fx-service", some "FX Service", 19/20,
            .jiraProject (upperStr (pyStrip "FX"))⟩ := hskip.trans hrb
    have hcond : vertWriteCond (fun _ => [])
        ⟨1, some "jira", some "t", some "c", none, none, some "FX", none, none⟩ := by
      constructor
      · rw [hcv]
        decide
      · rw [hcv]
        show (4:ℚ)/5 ≤ 19/20
        norm_num
    have h := (claim_c3 (fun _ => [])
      [⟨1, some "jira", some "t", some "c", none, none, some "FX", none, none⟩]
      (fun _ => none) (by decide) _ (List.mem_singleton.mpr rfl)).1 hcond
    refine ⟨hcond, ?_, ?_⟩
    · calc (classifyAndCount (fun _ => [])
            [⟨1, some "jira", some "t", some "c", none, none, some "FX", none, none⟩]
            (fun _ => none)).2.1 1
          = some ⟨(classifyTicketVertical (fun _ => [])
                ⟨1, some "jira", some "t", some "c", none, none, some "FX", none, none⟩).slug.getD "",
              (classifyTicketVertical (fun _ => [])
                ⟨1, some "jira", some "t", some "c", none, none, some "FX", none, none⟩).name.getD "",
              (classifyTicketVertical (fun _ => [])
                ⟨1, some "jira", some "t", some "c", none, none, some "FX", none, none⟩).conf,
              (classifyTicketVertical (fun _ => [])
                ⟨1, some "jira", some "t", some "c", none, none, some "FX", none, none⟩).exp⟩ := h.1
        _ = some ⟨"fx-service", "FX Service", 19/20, .jiraProject "FX"⟩ := by
          rw [hcv]
          rfl
    · calc (backfill_verticals (fun _ => [])
            [⟨1, some "jira", some "t", some "c", none, none, some "FX", none, none⟩]
            (fun _ => none)).1 1
          = some ⟨(classifyTicketVertical (fun _ => [])
                ⟨1, some "jira", some "t", some "c", none, none, some "FX", none, none⟩).slug.getD "",
              (classifyTicketVertical (fun _ => [])
                ⟨1, some "jira", some "t", some "c", none, none, some "FX", none, none⟩).name.getD "",
              (classifyTicketVertical (fun _ => [])
                ⟨1, some "jira", some "t", some "c", none, none, some "FX", none, none⟩).conf,
              (classifyTicketVertical (fun _ => [])
                ⟨1, some "jira", some "t", some "c", none, none, some "FX", none, none⟩).exp⟩ := h.2
        _ = some ⟨"fx-service", "FX Service", 19/20, .jiraProject "FX"⟩ := by
          rw [hcv]
          rfl
  · have hrule0 : pyTruthy (rule_based_vertical VERTICALS "slack" "" "").slug = false := by decide
    obtain ⟨best, hbmem, hslug, hconf, hmax, htie, hlo, hhi⟩ :=
      stageB_spec (fun _ => []) "slack" "hello" "" "" "" hrule0
    have hsc := comboScore_nilE_le (ensembleText "slack" "hello" "" "" "")
      (lowerStr (ensembleText "slack" "hello" "" "" "")) best
    have hcnot : ¬ vertWriteCond (fun _ => [])
        ⟨2, some "slack", some "hello", some "", none, none, none, none, none⟩ := by
      intro hc
      have hcf : (4:ℚ)/5 ≤ (classify_product_vertical VERTICALS (fun _ => [])
          "slack" "hello" "" "" "").conf := hc.2
      rw [hconf] at hcf
      have h1 : 11/20 + 2/5 * comboScore (fun _ => [])
          (ensembleText "slack" "hello" "" "" "")
          (lowerStr (ensembleText "slack" "hello" "" "" "")) best ≤ 69/100 := by
        linarith
      have h2 := le_trans (min_le_right (19/20 : ℚ) _) h1
      have h3 := max_le (show (1:ℚ)/2 ≤ 69/100 by norm_num) h2
      linarith
    have h := (claim_c3 (fun _ => [])
      [⟨2, some "slack", some "hello", some "", none, none, none, none, none⟩]
      (fun _ => none) (by decide) _ (List.mem_singleton.mpr rfl)).2 hcnot
    exact ⟨hcnot, h.1, h.2⟩

/-! ## Review workflow (`backend/services/review.py`) -/

/-- One submitted label row `{ticket_id, vertical_slug?, vertical_name?,
note?}`. -/
structure LabelItem where
  ticket_id : Nat
  vertical_slug : Option String
  vertical_name : Option String
  note : Option String
deriving DecidableEq

/-- Resolution of an item against the catalog:
`idx_by_slug.get(slug) or idx_by_name.get(name)` with lowercased keys
(slug match first, name match as fallback; catalog slugs and names are
distinct, so the dict lookups are first-match searches). -/
def resolveItem (it : LabelItem) : Option Vertical :=
  match VERTICALS.find? (fun v =>
      lowerStr v.slug == lowerStr (pyStrip (it.vertical_slug.getD ""))) with
  | some v => some v
  | none => VERTICALS.find? (fun v =>
      lowerStr v.name == lowerStr (pyStrip (it.vertical_name.getD "")))

/-- One iteration of the loop in `submit_labels`: skip unresolvable items;
otherwise write the gold label and overwrite the vertical assignment with
confidence `1.0` and explanation `{"source": "manual"}`. -/
def submitStep (reviewer : String) (acc : GoldStore × VertStore × Nat)
    (it : LabelItem) : GoldStore × VertStore × Nat :=
  match resolveItem it with
  | none => acc
  | some v =>
    (upsert_gold_label acc.1 it.ticket_id v.slug v.name reviewer
      (pyStrip (it.note.getD "")),
     upsert_ticket_vertical acc.2.1 it.ticket_id v.slug v.name 1 .manual,
     acc.2.2 + 1)

/-- `submit_labels` from `backend/services/review.py`; returns the two
stores and the `{"updated": n}` count. -/
def submit_labels (items : List LabelItem) (reviewer : String)
    (gold : GoldStore) (vert : VertStore) : GoldStore × VertStore × Nat :=
  items.foldl (submitStep reviewer) (gold, vert, 0)

theorem resolveItem_mem {it : LabelItem} {v : Vertical}
    (h : resolveItem it = some v) : v ∈ VERTICALS := by
  unfold resolveItem at h
  rcases hf : VERTICALS.find? (fun w =>
      lowerStr w.slug == lowerStr (pyStrip (it.vertical_slug.getD ""))) with _ | w
  · rw [hf] at h
    exact List.mem_of_find?_eq_some h
  · rw [hf] at h
    obtain rfl := Option.some.inj h
    exact List.mem_of_find?_eq_some hf

/-- The updated-count part of the fold. -/
theorem submit_count (reviewer : String) :
    ∀ (items : List LabelItem) (acc : GoldStore × VertStore × Nat),
      (items.foldl (submitStep reviewer) acc).2.2
        = acc.2.2 + (items.filter (fun it => (resolveItem it).isSome)).length := by
  intro items
  induction items with
  | nil => intro acc; simp
  | cons it rest ih =>
    intro acc
    rw [List.foldl_cons, ih]
    rcases hres : resolveItem it with _ | v
    · simp [submitStep, hres]
    · simp only [List.filter_cons, hres, Option.isSome_some, if_true,
        List.length_cons, submitStep]
      omega

/-- The frame part of the fold: items that never resolvably target `tid`
leave both stores unchanged at `tid`. -/
theorem submit_frame (reviewer : String) (tid : Nat) :
    ∀ (items : List LabelItem) (acc : GoldStore × VertStore × Nat),
      (∀ it ∈ items, it.ticket_id = tid → resolveItem it = none) →
      (items.foldl (submitStep reviewer) acc).1 tid = acc.1 tid ∧
      (items.foldl (submitStep reviewer) acc).2.1 tid = acc.2.1 tid := by
  intro items
  induction items with
  | nil => intro acc _; exact ⟨rfl, rfl⟩
  | cons it rest ih =>
    intro acc hnone
    rw [List.foldl_cons]
    rcases hres : resolveItem it with _ | v
    · have hacc : submitStep reviewer acc it = acc := by
        unfold submitStep
        rw [hres]
      rw [hacc]
      exact ih acc (fun x hx hxt => hnone x (List.mem_cons_of_mem it hx) hxt)
    · have hrest := ih (submitStep reviewer acc it)
        (fun x hx hxt => hnone x (List.mem_cons_of_mem it hx) hxt)
      have hne : it.ticket_id ≠ tid := by
        intro hEq
        rw [hnone it (List.mem_cons_self it rest) hEq] at hres
        exact Option.noConfusion hres
      have hstep : (submitStep reviewer acc it).1 tid = acc.1 tid ∧
          (submitStep reviewer acc it).2.1 tid = acc.2.1 tid := by
        unfold submitStep
        rw [hres]
        constructor
        · show upsert_gold_label acc.1 it.ticket_id v.slug v.name reviewer
            (pyStrip (it.note.getD "")) tid = acc.1 tid
          unfold upsert_gold_label
          rw [if_neg (fun hEq => hne hEq.symm)]
        · show upsert_ticket_vertical acc.2.1 it.ticket_id v.slug v.name 1 .manual tid
            = acc.2.1 tid
          unfold upsert_ticket_vertical
          rw [if_neg (fun hEq => hne hEq.symm)]
      exact ⟨hrest.1.trans hstep.1, hrest.2.trans hstep.2⟩

/-- The manual-write invariant: once the stores hold a manual catalog
assignment and a matching gold label for `tid`, any further submitted items
preserve that shape. -/
def manualState (tid : Nat) (gold : GoldStore) (vert : VertStore) : Prop :=
  ∃ v ∈ VERTICALS,
    vert tid = some ⟨v.slug, v.name, 1, .manual⟩ ∧
    ∃ g, gold tid = some g ∧ g.vertical_slug = v.slug ∧ g.vertical_name = v.name

theorem submitStep_manual (reviewer : String) (tid : Nat)
    (acc : GoldStore × VertStore × Nat) (it : LabelItem)
    (h : manualState tid acc.1 acc.2.1) :
    manualState tid (submitStep reviewer acc it).1 (submitStep reviewer acc it).2.1 := by
  rcases hres : resolveItem it with _ | v
  · unfold submitStep
    rw [hres]
    exact h
  · unfold submitStep
    rw [hres]
    by_cases hEq : tid = it.ticket_id
    · refine ⟨v, resolveItem_mem hres, ?_, ?_⟩
      · show upsert_ticket_vertical acc.2.1 it.ticket_id v.slug v.name 1 .manual tid = _
        unfold upsert_ticket_vertical
        rw [if_pos hEq]
      · show ∃ g, upsert_gold_label acc.1 it.ticket_id v.slug v.name reviewer
            (pyStrip (it.note.getD "")) tid = some g ∧ _
        unfold upsert_gold_label
        rw [if_pos hEq]
        rcases acc.1 it.ticket_id with _ | g0
        · exact ⟨_, rfl, rfl, rfl⟩
        · exact ⟨_, rfl, rfl, rfl⟩
    · obtain ⟨v0, hv0, hvert, g0, hgold, hgs, hgn⟩ := h
      refine ⟨v0, hv0, ?_, g0, ?_, hgs, hgn⟩
      · show upsert_ticket_vertical acc.2.1 it.ticket_id v.slug v.name 1 .manual tid = _
        unfold upsert_ticket_vertical
        rw [if_neg hEq]
        exact hvert
      · show upsert_gold_label acc.1 it.ticket_id v.slug v.name reviewer
            (pyStrip (it.note.getD "")) tid = some g0
        unfold upsert_gold_label
        rw [if_neg hEq]
        exact hgold

theorem submit_manual_preserved (reviewer : String) (tid : Nat) :
    ∀ (items : List LabelItem) (acc : GoldStore × VertStore × Nat),
      manualState tid acc.1 acc.2.1 →
      manualState tid (items.foldl (submitStep reviewer) acc).1
        (items.foldl (submitStep reviewer) acc).2.1 := by
  intro items
  induction items with
  | nil => intro acc h; exact h
  | cons it rest ih =>
    intro acc h
    rw [List.foldl_cons]
    exact ih _ (submitStep_manual reviewer tid acc it h)

theorem submit_writes (reviewer : String) (tid : Nat) :
    ∀ (items : List LabelItem) (acc : GoldStore × VertStore × Nat),
      (∃ it ∈ items, it.ticket_id = tid ∧ (resolveItem it).isSome) →
      manualState tid (items.foldl (submitStep reviewer) acc).1
        (items.foldl (submitStep reviewer) acc).2.1 := by
  intro items
  induction items with
  | nil =>
    intro acc h
    obtain ⟨it, hit, _⟩ := h
    exact absurd hit (List.not_mem_nil it)
  | cons it rest ih =>
    intro acc h
    rw [List.foldl_cons]
    by_cases hhead : it.ticket_id = tid ∧ (resolveItem it).isSome
    · apply submit_manual_preserved
      obtain ⟨hid, hsome⟩ := hhead
      rcases hres : resolveItem it with _ | v
      · rw [hres] at hsome
        exact absurd hsome (by simp)
      · unfold submitStep
        rw [hres]
        refine ⟨v, resolveItem_mem hres, ?_, ?_⟩
        · show upsert_ticket_vertical acc.2.1 it.ticket_id v.slug v.name 1 .manual tid = _
          unfold upsert_ticket_vertical
          rw [if_pos hid.symm]
        · show ∃ g, upsert_gold_label acc.1 it.ticket_id v.slug v.name reviewer
              (pyStrip (it.note.getD "")) tid = some g ∧ _
          unfold upsert_gold_label
          rw [if_pos hid.symm]
          rcases acc.1 it.ticket_id with _ | g0
          · exact ⟨_, rfl, rfl, rfl⟩
          · exact ⟨_, rfl, rfl, rfl⟩
    · apply ih
      obtain ⟨x, hx, hxt, hxs⟩ := h
      rcases List.mem_cons.mp hx with rfl | hx'
      · exact absurd ⟨hxt, hxs⟩ hhead
      · exact ⟨x, hx', hxt, hxs⟩

/-- C4: `submit_labels` counts exactly the items whose vertical resolves
against the catalog (by slug, else by name); unresolvable items are
skipped without touching the stores; every resolvably-targeted ticket ends
with a VerticalAssignment of confidence exactly `1.0` and explanation
`{"source": "manual"}` for a catalog vertical, together with a GoldLabel
carrying the same slug and name, regardless of any prior assignment. -/
theorem claim_c4 (items : List LabelItem) (reviewer : String)
    (gold : GoldStore) (vert : VertStore) (tid : Nat) :
    ((submit_labels items reviewer gold vert).2.2
       = (items.filter (fun it => (resolveItem it).isSome)).length) ∧
    ((∀ it ∈ items, it.ticket_id = tid → resolveItem it = none) →
      (submit_labels items reviewer gold vert).1 tid = gold tid ∧
      (submit_labels items reviewer gold vert).2.1 tid = vert tid) ∧
    ((∃ it ∈ items, it.ticket_id = tid ∧ (resolveItem it).isSome) →
      ∃ v ∈ VERTICALS,
        (submit_labels items reviewer gold vert).2.1 tid
          = some ⟨v.slug, v.name, 1, .manual⟩ ∧
        ∃ g, (submit_labels items reviewer gold vert).1 tid = some g ∧
          g.vertical_slug = v.slug ∧ g.vertical_name = v.name) ∧
    (∀ (it : LabelItem) (v : Vertical),
      VERTICALS.find? (fun w =>
        lowerStr w.slug == lowerStr (pyStrip (it.vertical_slug.getD ""))) = some v →
      resolveItem it = some v) := by
  refine ⟨?_, ?_, ?_, ?_⟩
  · have h := submit_count reviewer items (gold, vert, 0)
    simpa using h
  · intro hnone
    exact submit_frame reviewer tid items (gold, vert, 0) hnone
  · intro hex
    exact submit_writes reviewer tid items (gold, vert, 0) hex
  · intro it v hf
    unfold resolveItem
    rw [hf]

/-- Witness for C4: one resolvable item (slug `fx-service`, ticket 5) and
one unresolvable item (slug `nope`, ticket 6): updated = 1, ticket 5 gets
the manual assignment, ticket 6's stores stay empty. -/
theorem claim_c4_witness :
    ((submit_labels [⟨5, some "fx-service", none, none⟩, ⟨6, some "nope", none, none⟩]
        "rev" (fun _ => none) (fun _ => none)).2.2 = 1) ∧
    ((submit_labels [⟨5, some "fx-service", none, none⟩, ⟨6, some "nope", none, none⟩]
        "rev" (fun _ => none) (fun _ => none)).1 6 = none ∧
     (submit_labels [⟨5, some "fx-service", none, none⟩, ⟨6, some "nope", none, none⟩]
        "rev" (fun _ => none) (fun _ => none)).2.1 6 = none) ∧
    (∃ v ∈ VERTICALS,
      (submit_labels [⟨5, some "fx-service", none, none⟩, ⟨6, some "nope", none, none⟩]
          "rev" (fun _ => none) (fun _ => none)).2.1 5
        = some ⟨v.slug, v.name, 1, .manual⟩ ∧
      ∃ g, (submit_labels [⟨5, some "fx-service", none, none⟩, ⟨6, some "nope", none, none⟩]
          "rev" (fun _ => none) (fun _ => none)).1 5 = some g ∧
        g.vertical_slug = v.slug ∧ g.vertical_name = v.name) := by
  refine ⟨?_, ?_, ?_⟩
  · have h := (claim_c4 [⟨5, some "fx-service", none, none⟩, ⟨6, some "nope", none, none⟩]
      "rev" (fun _ => none) (fun _ => none) 5).1
    rw [h]
    decide
  · have h := (claim_c4 [⟨5, some "fx-service", none, none⟩, ⟨6, some "nope", none, none⟩]
      "rev" (fun _ => none) (fun _ => none) 6).2.1 (by decide)
    exact h
  · exact (claim_c4 [⟨5, some "fx-service", none, none⟩, ⟨6, some "nope", none, none⟩]
      "rev" (fun _ => none) (fun _ => none) 5).2.2.1 (by decide)

/-! ## Calibration engine (`backend/services/calibration.py`) -/

/-- `_iter_labeled_examples`: ground truth is the tickets for which the
structured Stage-A rules fire (never the ensemble), paired with the rule's
slug and name. -/
def iterLabeledExamples (tickets : List TicketRec) : List (TicketRec × String × String) :=
  tickets.filterMap (fun t =>
    let r := rule_based_vertical VERTICALS (t.source.getD "") (t.labels.getD "")
      (t.project.getD "")
    if pyTruthy r.slug then some (t, r.slug.getD "", r.name.getD "") else none)

/-- One precomputed prediction record. -/
structure PredRec where
  gt_slug : String
  pred_slug : Option String
  conf : ℚ
  ticket_id : Nat
  source : Option String
deriving DecidableEq

/-- One row of the threshold sweep. -/
structure ThresholdRow where
  threshold : ℚ
  precision : Option ℚ
  coverage : ℚ
  n_assigned : Nat
  correct_assigned : Nat
  total_labeled : Nat
deriving DecidableEq

/-- The calibration result: either the explicit empty-dataset note or the
threshold sweep plus label distribution. -/
inductive CalibResult where
  | emptyNote (total_labeled : Nat) (note : String)
  | results (total_labeled : Nat) (by_threshold : List ThresholdRow)
      (label_dist : List (String × Nat))
deriving DecidableEq

/-- The sweep `[round(x, 2) for x in [0.50, …, 0.95]]`. -/
def calibThresholds : List ℚ :=
  [1/2, 11/20, 3/5, 13/20, 7/10, 3/4, 4/5, 17/20, 9/10, 19/20]

/-- `calibrate_precision_coverage` from `backend/services/calibration.py`
(the source/day filters happen in the database query; `tickets` is the
queried set).  `precision = correct/assigned if assigned else None`;
`coverage = assigned/total`; the `Counter` label distribution is the list
of distinct ground-truth slugs in first-occurrence order with counts. -/
def calibrate_precision_coverage (E : String → List ℚ) (tickets : List TicketRec) :
    CalibResult :=
  let dataset := iterLabeledExamples tickets
  let total := dataset.length
  if total = 0 then
    .emptyNote 0 "No rule-labeled examples found. Add jira_labels/zendesk_tags in product_verticals.py or ensure labels/tags exist in the data."
  else
    let preds := dataset.map (fun x =>
      let r := classify_product_vertical VERTICALS E (x.1.source.getD "")
        (x.1.title.getD "") (x.1.content.getD "") (x.1.labels.getD "")
        (x.1.project.getD "")
      PredRec.mk x.2.1 r.slug r.conf x.1.id x.1.source)
    let out := calibThresholds.map (fun th =>
      let assigned := preds.filter (fun r => pyTruthy r.pred_slug && decide (th ≤ r.conf))
      let n := assigned.length
      let correct := (assigned.filter (fun r => r.pred_slug == some r.gt_slug)).length
      ThresholdRow.mk th (if n = 0 then none else some ((correct : ℚ) / n))
        ((n : ℚ) / total) n correct total)
    let gts := dataset.map (fun x => x.2.1)
    .results total out ((gts.dedup).map (fun g => (g, gts.count g)))

/-- C9: for every calibration run, each threshold row reports precision
`None` (undefined, never zero) when no prediction clears the threshold and
`correct/assigned` otherwise, while coverage is always
`n_assigned/total_labeled`; and on an empty rule-labeled ground-truth set
the engine returns the explicit empty-result note instead of computing any
ratio. -/
theorem claim_c9 (E : String → List ℚ) (tickets : List TicketRec) :
    (iterLabeledExamples tickets = [] →
      calibrate_precision_coverage E tickets
        = .emptyNote 0 "No rule-labeled examples found. Add jira_labels/zendesk_tags in product_verticals.py or ensure labels/tags exist in the data.") ∧
    (iterLabeledExamples tickets ≠ [] →
      ∃ rows dist,
        calibrate_precision_coverage E tickets
          = .results (iterLabeledExamples tickets).length rows dist ∧
        rows.length = calibThresholds.length ∧
        ∀ row ∈ rows,
          (row.n_assigned = 0 → row.precision = none) ∧
          (row.n_assigned ≠ 0 →
            row.precision = some ((row.correct_assigned : ℚ) / row.n_assigned)) ∧
          row.coverage = (row.n_assigned : ℚ) / (iterLabeledExamples tickets).length ∧
          row.total_labeled = (iterLabeledExamples tickets).length) := by
  constructor
  · intro h
    simp [calibrate_precision_coverage, h]
  · intro h
    have htot : ¬ (iterLabeledExamples tickets).length = 0 := by
      simpa using h
    simp only [calibrate_precision_coverage]
    rw [if_neg htot]
    refine ⟨_, _, rfl, List.length_map _ _, ?_⟩
    intro row hrow
    obtain ⟨th, hth, hreq⟩ := List.mem_map.mp hrow
    obtain rfl := hreq
    refine ⟨?_, ?_, rfl, rfl⟩
    · intro h0
      simp only at h0
      simp [h0]
    · intro h0
      simp only at h0
      simp [h0]

/-- Witness for C9: the empty ticket set yields the note; a single jira
ticket labelled `fx` is rule-labelled, so the sweep runs with
`total_labeled = 1`. -/
theorem claim_c9_witness :
    (calibrate_precision_coverage (fun _ => []) []
      = .emptyNote 0 "No rule-labeled examples found. Add jira_labels/zendesk_tags in product_verticals.py or ensure labels/tags exist in the data.") ∧
    (∃ rows dist,
      calibrate_precision_coverage (fun _ => [])
          [⟨1, some "jira", some "t", some "c", none, some "fx", none, none, none⟩]
        = .results (iterLabeledExamples
            [⟨1, some "jira", some "t", some "c", none, some "fx", none, none, none⟩]).length
            rows dist ∧
      rows.length = calibThresholds.length ∧
      ∀ row ∈ rows,
        (row.n_assigned = 0 → row.precision = none) ∧
        (row.n_assigned ≠ 0 →
          row.precision = some ((row.correct_assigned : ℚ) / row.n_assigned)) ∧
        row.coverage = (row.n_assigned : ℚ) / (iterLabeledExamples
            [⟨1, some "jira", some "t", some "c", none, some "fx", none, none, none⟩]).length ∧
        row.total_labeled = (iterLabeledExamples
            [⟨1, some "jira", some "t", some "c", none, some "fx", none, none, none⟩]).length) :=
  ⟨(claim_c9 (fun _ => []) []).1 rfl,
   (claim_c9 (fun _ => [])
      [⟨1, some "jira", some "t", some "c", none, some "fx", none, none, none⟩]).2
     (by decide)⟩

/-! ## Theme building (`build_themes`, `backend/services/insights.py`) -/

/-- The majority vote deciding a theme's type:
`"issue" if data.get("issue",0) >= data.get("feature_request",0) else
"feature_request"`. -/
def majType (grp : List TicketRec) : String :=
  if grp.countP (fun t => t.type == some "feature_request")
      ≤ grp.countP (fun t => t.type == some "issue")
  then "issue" else "feature_request"

/-- The theme buckets of `build_themes` step (4): group the
`(ticket, cluster label)` pairs by label and decide each bucket's type by
majority vote; each summary is `(label, type, size)`.  (The Python dict
iterates buckets in first-insertion order and the result is re-sorted by
size; bucket order carries no meaning and is not modelled — claims
quantify over membership.) -/
def build_theme_summaries (pairs : List (TicketRec × Nat)) : List (Nat × String × Nat) :=
  ((pairs.map (fun p => p.2)).dedup).map (fun lab =>
    (lab, majType ((pairs.filter (fun p => p.2 == lab)).map (fun p => p.1)),
     ((pairs.filter (fun p => p.2 == lab)).map (fun p => p.1)).length))

/-- The templated suggested action of `suggest_themes`, keyed by theme
type. -/
def suggested_action (typ hint : String) : String :=
  if typ == "issue" then "Prioritize a bugfix sprint for: " ++ hint
  else if typ == "feature_request" then "Scope an epic and RFC for: " ++ hint
  else "Triage and split theme into fixes and features: " ++ hint

/-- C10: every theme produced by `build_themes` has type exactly "issue" or
"feature_request" (never "unknown" or "mixed"); a cluster with only
"unknown" tickets gets type "issue" (zero ≥ zero); hence the triage branch
of `suggest_themes`'s suggested action is unreachable for themes built by
this pipeline. -/
theorem claim_c10 (pairs : List (TicketRec × Nat)) :
    (∀ th ∈ build_theme_summaries pairs,
      th.2.1 = "issue" ∨ th.2.1 = "feature_request") ∧
    (∀ lab ∈ pairs.map (fun p => p.2),
      (∀ t ∈ (pairs.filter (fun p => p.2 == lab)).map (fun p => p.1),
        t.type = some "unknown") →
      (lab, "issue",
        ((pairs.filter (fun p => p.2 == lab)).map (fun p => p.1)).length)
        ∈ build_theme_summaries pairs) ∧
    (∀ th ∈ build_theme_summaries pairs, ∀ hint : String,
      suggested_action th.2.1 hint = "Prioritize a bugfix sprint for: " ++ hint ∨
      suggested_action th.2.1 hint = "Scope an epic and RFC for: " ++ hint) := by
  have htypes : ∀ th ∈ build_theme_summaries pairs,
      th.2.1 = "issue" ∨ th.2.1 = "feature_request" := by
    intro th hth
    obtain ⟨lab, _, hlab⟩ := List.mem_map.mp hth
    rw [← hlab]
    unfold majType
    split_ifs
    · exact Or.inl rfl
    · exact Or.inr rfl
  refine ⟨htypes, ?_, ?_⟩
  · intro lab hlab hunk
    have hdedup : lab ∈ (pairs.map (fun p => p.2)).dedup := List.mem_dedup.mpr hlab
    have hmaj : majType ((pairs.filter (fun p => p.2 == lab)).map (fun p => p.1))
        = "issue" := by
      unfold majType
      rw [if_pos]
      have hzero : ((pairs.filter (fun p => p.2 == lab)).map (fun p => p.1)).countP
          (fun t => t.type == some "feature_request") = 0 := by
        rw [List.countP_eq_zero]
        intro t ht
        rw [hunk t ht]
        decide
      rw [hzero]
      exact Nat.zero_le _
    have hmem := List.mem_map_of_mem (fun lab =>
      (lab, majType ((pairs.filter (fun p => p.2 == lab)).map (fun p => p.1)),
       ((pairs.filter (fun p => p.2 == lab)).map (fun p => p.1)).length)) hdedup
    dsimp only at hmem
    rw [hmaj] at hmem
    exact hmem
  · intro th hth hint
    rcases htypes th hth with h | h
    · left
      rw [h]
      rfl
    · right
      rw [h]
      rfl

/-- Witness for C10 at one all-unknown cluster: the theme gets type
"issue" and the bugfix action. -/
theorem claim_c10_witness :
    (∀ th ∈ build_theme_summaries
        [(⟨1, some "slack", some "t", some "c", none, none, none, none, some "unknown"⟩, 0)],
      th.2.1 = "issue" ∨ th.2.1 = "feature_request") ∧
    ((0, "issue", 1) ∈ build_theme_summaries
        [(⟨1, some "slack", some "t", some "c", none, none, none, none, some "unknown"⟩, 0)]) := by
  constructor
  · exact (claim_c10 _).1
  · have h := (claim_c10
      [(⟨1, some "slack", some "t", some "c", none, none, none, none, some "unknown"⟩, 0)]).2.1
      0 (by decide) (by decide)
    simpa using h

/-! ## Suggestion scorer (`suggest_themes`, `backend/services/insights.py`)

Time is modelled in whole days (an `Int` timestamp); `week_ago = now -
timedelta(days=7)` becomes `now - 7`. -/

/-- One ticket entry inside a built theme (`th["tickets"]`). -/
structure ThemeTicket where
  id : Option Nat
  title : String
  url : String
  vertical : Option String
deriving DecidableEq

/-- One theme as produced by `build_themes`. -/
structure ThemeData where
  label : Nat
  hint : String
  type : String
  size : Nat
  tickets : List ThemeTicket
deriving DecidableEq

/-- The ticket columns `suggest_themes` re-queries for scoring. -/
structure TicketRow where
  priority : Option String
  source_updated_at : Option Int
  created_at : Option Int
deriving DecidableEq

/-- One entry of the returned suggestion list. -/
structure Suggestion where
  label : Nat
  type : String
  hint : String
  size : Nat
  score : ℚ
  recent_7d : Nat
  high_priority : Nat
  top_vertical : Option String
  suggested_act : String
  rationale : String
  samples : List (String × String)
deriving DecidableEq

/-- `max((th.get("size", 0) for th in themes), default=1) or 1`. -/
def maxSizeOf (themes : List ThemeData) : Nat :=
  if (themes.map (fun th => th.size)).foldl max 0 = 0 then 1
  else (themes.map (fun th => th.size)).foldl max 0

/-- The database rows for a theme's distinct ticket ids
(`session.query(Ticket).filter(Ticket.id.in_(t_ids)).all()`; the database
returns one row per present id, in unspecified order — only counts over
the rows are used). -/
def themeRows (db : Nat → Option TicketRow) (th : ThemeData) : List TicketRow :=
  ((th.tickets.filterMap (fun tt => tt.id)).dedup).filterMap db

/-- `sum(1 for r in rows if (r.source_updated_at or r.created_at or now) >=
week_ago)`. -/
def recent7d (db : Nat → Option TicketRow) (now : Int) (th : ThemeData) : Nat :=
  (themeRows db th).countP (fun r =>
    now - 7 ≤ ((r.source_updated_at.orElse (fun _ => r.created_at)).getD now))

/-- Case-insensitive substring match of the high-priority markers against
the priority field. -/
def rowHighPriority (r : TicketRow) : Bool :=
  (["p0", "p1", "blocker", "critical", "high"]).any
    (fun p => containsSubstr (lowerStr (r.priority.getD "")).data p.data)

/-- The high-priority count over the theme's rows. -/
def highPriorityCount (db : Nat → Option TicketRow) (th : ThemeData) : Nat :=
  (themeRows db th).countP rowHighPriority

/-- The lowercased, stripped, non-empty vertical names of a theme's
tickets. -/
def themeVnames (th : ThemeData) : List String :=
  th.tickets.filterMap (fun tt =>
    if lowerStr (pyStrip (tt.vertical.getD "")) ≠ ""
    then some (lowerStr (pyStrip (tt.vertical.getD ""))) else none)

/-- `Counter(vnames).most_common(1)[0][0]` (tie order among equally common
names is unspecified here, as in the dict-order-dependent original). -/
def firstMostCommon (l : List String) : Option String :=
  match l.dedup with
  | [] => none
  | c :: rest =>
    some (rest.foldl (fun acc x => if l.count acc < l.count x then x else acc) c)

/-- The raw (unrounded) priority score of a theme:
`0.6*normalized_size + 0.3*recency_ratio + 0.1*high_priority_ratio`. -/
def themeScore (db : Nat → Option TicketRow) (now : Int) (maxSize : Nat)
    (th : ThemeData) : ℚ :=
  6/10 * ((th.size : ℚ) / (maxSize : ℚ))
    + 3/10 * (if th.size ≠ 0 then (recent7d db now th : ℚ) / (th.size : ℚ) else 0)
    + 1/10 * (if th.size ≠ 0 then (highPriorityCount db th : ℚ) / (th.size : ℚ) else 0)

/-- The suggestion built for one theme, or `none` when the theme has no
ticket ids (`continue`). -/
def suggestionFor (db : Nat → Option TicketRow) (now : Int) (maxSize : Nat)
    (th : ThemeData) : Option Suggestion :=
  if th.tickets.filterMap (fun tt => tt.id) = [] then none
  else some
    ⟨th.label, th.type, th.hint, th.size,
     round4 (themeScore db now maxSize th),
     recent7d db now th, highPriorityCount db th,
     firstMostCommon (themeVnames th),
     suggested_action th.type th.hint,
     toString th.size ++ " tickets; " ++ toString (recent7d db now th)
       ++ " updated in last 7d; " ++ toString (highPriorityCount db th)
       ++ " high-priority",
     (th.tickets.take 2).map (fun tt => (tt.title, tt.url))⟩

/-- Descending-score order on suggestions. -/
def sugGE (a b : Suggestion) : Prop := b.score ≤ a.score

instance : DecidableRel sugGE := fun a b => inferInstanceAs (Decidable (b.score ≤ a.score))

instance : IsTotal Suggestion sugGE := ⟨fun a b => le_total b.score a.score⟩

instance : IsTrans Suggestion sugGE := ⟨fun _ _ _ h1 h2 => le_trans h2 h1⟩

/-- `suggest_themes` from `backend/services/insights.py`, given the themes
of a build: score each theme, sort by score descending (stable), and
truncate to `top_n` when `top_n > 0`. -/
def suggest_themes (db : Nat → Option TicketRow) (now : Int)
    (themes : List ThemeData) (top_n : Int) : List Suggestion :=
  if themes = [] then []
  else
    let sorted := List.insertionSort sugGE
      (themes.filterMap (suggestionFor db now (maxSizeOf themes)))
    if 0 < top_n then sorted.take top_n.toNat else sorted

/-- The spec's worked example: one theme of ten tickets, five updated
within the last seven days, two with high priority. -/
def exampleTheme : ThemeData :=
  ⟨0, "h", "issue", 10, (List.range 10).map (fun i => ⟨some (i+1), "t", "u", none⟩)⟩

/-- The ticket rows backing `exampleTheme` (time unit: days, "now" = 0). -/
def exampleDb : Nat → Option TicketRow := fun i =>
  if 1 ≤ i ∧ i ≤ 10 then
    some ⟨if i ≤ 2 then some "P0" else some "low",
          if i ≤ 5 then some 0 else some (-100), none⟩
  else none

/-- C8: every suggestion's score is
`round4(0.6*size/max_size + 0.3*recent_7d/size + 0.1*high_priority/size)`;
the returned list is sorted by score descending and truncated to the
requested top-N; and the spec's example (size 10, max 10, recent 5,
high-priority 2) scores exactly `0.77`. -/
theorem claim_c8 (db : Nat → Option TicketRow) (now : Int) (themes : List ThemeData)
    (top_n : Int) (htop : 0 < top_n) :
    (∀ s ∈ suggest_themes db now themes top_n, 0 < s.size →
      s.score = round4 (6/10 * ((s.size : ℚ) / (maxSizeOf themes : ℚ))
        + 3/10 * ((s.recent_7d : ℚ) / (s.size : ℚ))
        + 1/10 * ((s.high_priority : ℚ) / (s.size : ℚ)))) ∧
    List.Sorted sugGE (suggest_themes db now themes top_n) ∧
    (suggest_themes db now themes top_n).length ≤ top_n.toNat ∧
    (∃ s, suggest_themes exampleDb 0 [exampleTheme] 5 = [s] ∧ s.size = 10 ∧
      s.recent_7d = 5 ∧ s.high_priority = 2 ∧ s.score = 77/100) := by
  refine ⟨?_, ?_, ?_, ?_⟩
  · intro s hs h0
    by_cases hthemes : themes = []
    · rw [hthemes] at hs
      simp [suggest_themes] at hs
    · unfold suggest_themes at hs
      rw [if_neg hthemes, if_pos htop] at hs
      have hs' := List.mem_insertionSort sugGE |>.mp (List.mem_of_mem_take hs)
      obtain ⟨th, hthm, hsf⟩ := List.mem_filterMap.mp hs'
      unfold suggestionFor at hsf
      split_ifs at hsf
      obtain rfl := Option.some.inj hsf
      show round4 (themeScore db now (maxSizeOf themes) th) = _
      unfold themeScore
      have hne : th.size ≠ 0 := by
        intro hz
        rw [show (Suggestion.mk th.label th.type th.hint th.size
          (round4 (themeScore db now (maxSizeOf themes) th))
          (recent7d db now th) (highPriorityCount db th)
          (firstMostCommon (themeVnames th))
          (suggested_action th.type th.hint)
          (toString th.size ++ " tickets; " ++ toString (recent7d db now th)
            ++ " updated in last 7d; " ++ toString (highPriorityCount db th)
            ++ " high-priority")
          ((th.tickets.take 2).map (fun tt => (tt.title, tt.url)))).size = th.size
          from rfl, hz] at h0
        exact absurd h0 (lt_irrefl 0)
      rw [if_pos hne, if_pos hne]
  · by_cases hthemes : themes = []
    · simp [suggest_themes, hthemes]
    · unfold suggest_themes
      rw [if_neg hthemes, if_pos htop]
      exact List.Pairwise.sublist (List.take_sublist _ _)
        (List.sorted_insertionSort sugGE _)
  · by_cases hthemes : themes = []
    · simp [suggest_themes, hthemes]
    · unfold suggest_themes
      rw [if_neg hthemes, if_pos htop]
      exact List.length_take_le _ _
  · have hids : ¬ exampleTheme.tickets.filterMap (fun tt => tt.id) = [] := by decide
    have hrec : recent7d exampleDb 0 exampleTheme = 5 := by decide
    have hhigh : highPriorityCount exampleDb exampleTheme = 2 := by decide
    have hms : maxSizeOf [exampleTheme] = 10 := by decide
    have hscore : themeScore exampleDb 0 10 exampleTheme = 77/100 := by
      unfold themeScore
      rw [hrec, hhigh, show exampleTheme.size = 10 from rfl]
      norm_num
    have hround : round4 (77/100 : ℚ) = 77/100 := by
      unfold round4
      rw [show (77:ℚ)/100 * 10000 = ((7700:ℤ):ℚ) by norm_num, round_intCast]
      norm_num
    refine ⟨⟨0, "issue", "h", 10, 77/100, 5, 2, none,
      "Prioritize a bugfix sprint for: h",
      "10 tickets; 5 updated in last 7d; 2 high-priority",
      [("t","u"),("t","u")]⟩, ?_, rfl, rfl, rfl, rfl⟩
    have hsug : suggestionFor exampleDb 0 (maxSizeOf [exampleTheme]) exampleTheme
        = some ⟨0, "issue", "h", 10, 77/100, 5, 2, none,
            "Prioritize a bugfix sprint for: h",
            "10 tickets; 5 updated in last 7d; 2 high-priority",
            [("t","u"),("t","u")]⟩ := by
      unfold suggestionFor
      rw [if_neg hids]
      refine congrArg some ?_
      rw [hms, hscore, hround, hrec, hhigh]
      rfl
    unfold suggest_themes
    rw [if_neg (by decide : ¬ ([exampleTheme] : List ThemeData) = []),
      if_pos (by decide : (0:Int) < 5)]
    rw [show ([exampleTheme].filterMap
        (suggestionFor exampleDb 0 (maxSizeOf [exampleTheme])))
      = [⟨0, "issue", "h", 10, 77/100, 5, 2, none,
          "Prioritize a bugfix sprint for: h",
          "10 tickets; 5 updated in last 7d; 2 high-priority",
          [("t","u"),("t","u")]⟩] from by
        rw [List.filterMap_cons]
        rw [hsug]
        rfl]
    rfl

/-- Witness for C8 at the worked example (top-N = 5). -/
theorem claim_c8_witness :
    (0:Int) < 5 ∧
    List.Sorted sugGE (suggest_themes exampleDb 0 [exampleTheme] 5) ∧
    (suggest_themes exampleDb 0 [exampleTheme] 5).length ≤ (5:Int).toNat ∧
    (∃ s, suggest_themes exampleDb 0 [exampleTheme] 5 = [s] ∧ s.size = 10 ∧
      s.recent_7d = 5 ∧ s.high_priority = 2 ∧ s.score = 77/100) := by
  have h := claim_c8 exampleDb 0 [exampleTheme] 5 (by decide)
  exact ⟨by decide, h.2.1, h.2.2.1, h.2.2.2⟩

/-! ## Text normalizer (`backend/nlp/preprocess.py`)

`clean_text` applies, in order: `CODEBLOCK.sub(" ", s)` with
`CODEBLOCK = ```.*?```` (DOTALL), `URL.sub(" ", s)` with
`URL = https?://\S+`, `s.replace("\n", " ")`, `WS.sub(" ", s)` with
`WS = \s+`, `s.strip()[:4000]`.

The three `re.sub` loops are modelled as recursions that mirror the
regex engine: a `CODEBLOCK` match starts at the earliest fence that has a
later disjoint fence, pairs it with the earliest such partner (lazy
`.*?`), and scanning resumes after the match; a `URL` match starts at the
earliest scheme occurrence followed by at least one non-space character
and greedily consumes the non-space run; `WS` replaces each maximal
whitespace run by one space. -/

/-- The fence literal `` ``` ``. -/
def fenceL : List Char := ['\x60', '\x60', '\x60']

/-- A fence starts at the head of `l`. -/
def headFence (l : List Char) : Bool := litAt l 0 fenceL

/-- A fence starts at index `k` of `l`. -/
def fenceAt (l : List Char) (k : Nat) : Bool := headFence (l.drop k)

/-- `"https://"` as characters. -/
def httpsL : List Char := "https://".data

/-- `"http://"` as characters. -/
def httpL : List Char := "http://".data

/-- A (non-space) character is present at index `i`. -/
def nonspaceAt (l : List Char) (i : Nat) : Bool :=
  match l.drop i with
  | [] => false
  | c :: _ => !isPySpace c

/-- `https?://\S+` matches at the head of `l`: a scheme literal followed by
at least one non-space character. -/
def urlHeadMatch (l : List Char) : Bool :=
  (litAt l 0 httpsL && nonspaceAt l 8) || (litAt l 0 httpL && nonspaceAt l 7)

/-- `https?://\S+` matches at index `k` of `l`. -/
def urlAt (l : List Char) (k : Nat) : Bool := urlHeadMatch (l.drop k)

/-- Length of the scheme part matched at the head. -/
def schemeLen (l : List Char) : Nat := if litAt l 0 httpsL then 8 else 7

/-- The head character is whitespace. -/
def headSpace (l : List Char) : Bool :=
  match l with
  | [] => false
  | c :: _ => isPySpace c

/-- Index of the first suffix of `l` satisfying `p` (the position where a
regex scan first matches). -/
def findSuffix (p : List Char → Bool) : List Char → Option Nat
  | [] => none
  | c :: rest => if p (c :: rest) then some 0 else (findSuffix p rest).map (· + 1)

/-- One step of `CODEBLOCK.sub(" ", s)` scanning. The first argument is a
skip counter: while positive, characters belong to an already-replaced match
and are consumed silently. At skip 0 the scanner checks for a match at the
current position: a fence here plus a later disjoint partner fence (the
lazy `.*?` pairs a fence with the earliest partner); on a match it emits the
replacement space and skips the rest of the span, otherwise it copies the
character and moves one position ahead, exactly as the regex scan does. -/
def cbA : Nat → List Char → List Char
  | _, [] => []
  | skip + 1, _ :: rest => cbA skip rest
  | 0, c :: rest =>
    if headFence (c :: rest) then
      match findSuffix headFence ((c :: rest).drop 3) with
      | some j => ' ' :: cbA (j + 5) rest
      | none => c :: cbA 0 rest
    else c :: cbA 0 rest

/-- `CODEBLOCK.sub(" ", s)` with `CODEBLOCK = \x60\x60\x60.*?\x60\x60\x60` (DOTALL). -/
def codeblockSub (l : List Char) : List Char := cbA 0 l

/-- One step of `URL.sub(" ", s)` scanning: a skip counter for the scheme
characters of a replaced match, then a flag marking that the scanner is
inside the matched greedy `\S+` run (consumed silently until whitespace or
the end). At skip 0 outside a run, a match starts here iff a scheme literal
is followed by a non-space character; the replacement space is emitted and
the scheme is skipped. A whitespace character can never start a match, so
the run state hands it to the plain-copy step directly. -/
def urlSubA : Nat → Bool → List Char → List Char
  | _, _, [] => []
  | skip + 1, inRun, _ :: rest => urlSubA skip inRun rest
  | 0, true, c :: rest =>
    if isPySpace c then c :: urlSubA 0 false rest
    else urlSubA 0 true rest
  | 0, false, c :: rest =>
    if urlHeadMatch (c :: rest) then
      ' ' :: urlSubA (schemeLen (c :: rest) - 1) true rest
    else c :: urlSubA 0 false rest

/-- `URL.sub(" ", s)` with `URL = https?://\S+`. -/
def urlSub (l : List Char) : List Char := urlSubA 0 false l

def replNl (l : List Char) : List Char := l.map (fun c => if c = '\n' then ' ' else c)

/-- One step of `WS.sub(" ", s)` scanning: the flag records that the scanner
is inside a whitespace run whose first character was already replaced by a
space; further run characters are consumed silently. -/
def wsA : Bool → List Char → List Char
  | _, [] => []
  | false, c :: rest =>
    if isPySpace c then ' ' :: wsA true rest
    else c :: wsA false rest
  | true, c :: rest =>
    if isPySpace c then wsA true rest
    else c :: wsA false rest

/-- `WS.sub(" ", s)` with `WS = \s+`: each maximal whitespace run becomes
one space. -/
def wsCollapse (l : List Char) : List Char := wsA false l

/-- The fully normalised text before the `[:4000]` clip. -/
def preClean (s : String) : List Char :=
  stripChars (wsCollapse (replNl (urlSub (codeblockSub s.data))))

/-- `clean_text` from `backend/nlp/preprocess.py` (`if not s: return ""`,
then the five passes). -/
def clean_text (s : String) : String :=
  if s == "" then "" else ⟨(preClean s).take 4000⟩

/-! ### Normal-form predicates for `clean_text` outputs -/

/-- No two disjoint fences: nowhere can a `CODEBLOCK` match start. -/
def noTwoF (l : List Char) : Prop :=
  ∀ p q, p + 3 ≤ q → ¬(fenceAt l p = true ∧ fenceAt l q = true)

/-- No `URL` match anywhere. -/
def noUrl (l : List Char) : Prop := ∀ p, urlAt l p = false

/-- Every whitespace character is a plain space. -/
def spacesOk (l : List Char) : Prop := ∀ c ∈ l, isPySpace c = true → c = ' '

/-- No two adjacent whitespace characters. -/
def noDbl (l : List Char) : Prop :=
  ∀ k c₁ c₂, l[k]? = some c₁ → l[k + 1]? = some c₂ →
    ¬(isPySpace c₁ = true ∧ isPySpace c₂ = true)

/-! ### Index-level characterisation of literal occurrence -/

/-- `litAt` via pointwise character lookup. -/
theorem litAt_iff {l w : List Char} {k : Nat} :
    litAt l k w = true ↔ ∀ m, m < w.length → l[k + m]? = w[m]? := by
  unfold litAt
  rw [beq_iff_eq]
  constructor
  · intro h m hm
    have h1 : ((l.drop k).take w.length)[m]? = w[m]? := by rw [h]
    rw [List.getElem?_take, if_pos hm, List.getElem?_drop] at h1
    exact h1
  · intro h
    apply List.ext_getElem?
    intro n
    by_cases hn : n < w.length
    · rw [List.getElem?_take, if_pos hn, List.getElem?_drop]
      exact h n hn
    · rw [List.getElem?_eq_none (l := w) (by omega)]
      apply List.getElem?_eq_none
      have := List.length_take w.length (l.drop k)
      omega

/-- A literal occurrence fits inside the list. -/
theorem litAt_le_length {l w : List Char} {k : Nat} (hw : w ≠ [])
    (h : litAt l k w = true) : k + w.length ≤ l.length := by
  have hlen : 0 < w.length := List.length_pos.mpr hw
  have h1 := litAt_iff.mp h (w.length - 1) (by omega)
  by_contra hc
  rw [List.getElem?_eq_none (by omega)] at h1
  have h2 : w.length ≤ w.length - 1 := List.getElem?_eq_none_iff.mp h1.symm
  omega

/-- Transfer a literal occurrence out of a prefix. -/
theorem litAt_take {l w : List Char} {n k : Nat} (h : litAt (l.take n) k w = true) :
    litAt l k w = true := by
  rw [litAt_iff] at h ⊢
  intro m hm
  have h1 := h m hm
  have h2 : k + m < n := by
    by_contra hc
    rw [List.getElem?_take, if_neg (by omega)] at h1
    have h3 : w.length ≤ m := List.getElem?_eq_none_iff.mp h1.symm
    omega
  rw [List.getElem?_take, if_pos h2] at h1
  exact h1

/-- Shift a literal occurrence across `drop`. -/
theorem litAt_drop {l w : List Char} {n k : Nat} :
    litAt (l.drop n) k w = litAt l (n + k) w := by
  unfold litAt
  rw [List.drop_drop]

/-- Occurrence at the head of a suffix is occurrence at that index. -/
theorem litAt_drop_zero {l w : List Char} {k : Nat} :
    litAt (l.drop k) 0 w = litAt l k w := by
  rw [litAt_drop, Nat.add_zero]

/-- A literal without spaces cannot straddle a single-space seam: it lies
fully in the left part or fully in the right part. -/
theorem lit_seam {A B w : List Char} {k : Nat} (hw : ' ' ∉ w)
    (h : litAt (A ++ ' ' :: B) k w = true) :
    (k + w.length ≤ A.length ∧ litAt A k w = true) ∨
      (∃ k', k = A.length + 1 + k' ∧ litAt B k' w = true) := by
  rw [litAt_iff] at h
  rcases Nat.lt_or_ge k (A.length + 1) with hk | hk
  · left
    have hfit : k + w.length ≤ A.length := by
      by_contra hc
      have hm : A.length - k < w.length := by omega
      have h1 := h (A.length - k) hm
      rw [List.getElem?_append, if_neg (by omega)] at h1
      have h2 : k + (A.length - k) - A.length = 0 := by omega
      rw [h2, List.getElem?_cons_zero] at h1
      exact hw (List.getElem?_mem h1.symm)
    refine ⟨hfit, ?_⟩
    rw [litAt_iff]
    intro m hm
    have h1 := h m hm
    rw [List.getElem?_append, if_pos (by omega)] at h1
    exact h1
  · right
    refine ⟨k - A.length - 1, by omega, ?_⟩
    rw [litAt_iff]
    intro m hm
    have h1 := h m hm
    rw [List.getElem?_append, if_neg (by omega)] at h1
    have h2 : k + m - A.length = (k - A.length - 1 + m) + 1 := by omega
    rw [h2, List.getElem?_cons_succ] at h1
    exact h1

/-- `nonspaceAt` via character lookup. -/
theorem nonspaceAt_iff {l : List Char} {j : Nat} :
    nonspaceAt l j = true ↔ ∃ c, l[j]? = some c ∧ isPySpace c = false := by
  unfold nonspaceAt
  have hget : l[j]? = (l.drop j)[0]? := by rw [List.getElem?_drop, Nat.add_zero]
  rcases hd : l.drop j with _ | ⟨c, t⟩
  · rw [hd] at hget
    simp only [List.getElem?_nil] at hget
    constructor
    · intro h'
      exact absurd h' (by simp)
    · rintro ⟨c, hc, -⟩
      rw [hget] at hc
      exact absurd hc (by simp)
  · rw [hd, List.getElem?_cons_zero] at hget
    constructor
    · intro h'
      exact ⟨c, hget, by simpa using h'⟩
    · rintro ⟨c', hc', hsp⟩
      rw [hget] at hc'
      cases hc'
      simpa using hsp

/-- A present non-space character survives a single-space seam split. -/
theorem nonspace_seam {A B : List Char} {i : Nat}
    (h : nonspaceAt (A ++ ' ' :: B) i = true) :
    (i < A.length ∧ nonspaceAt A i = true) ∨
      (∃ i', i = A.length + 1 + i' ∧ nonspaceAt B i' = true) := by
  rw [nonspaceAt_iff] at h
  obtain ⟨c, hc, hsp⟩ := h
  rcases Nat.lt_or_ge i A.length with hi | hi
  · left
    refine ⟨hi, nonspaceAt_iff.mpr ⟨c, ?_, hsp⟩⟩
    rw [List.getElem?_append, if_pos hi] at hc
    exact hc
  · rcases Nat.eq_or_lt_of_le hi with hieq | hilt
    · exfalso
      rw [List.getElem?_append, if_neg (by omega), ← hieq, Nat.sub_self,
        List.getElem?_cons_zero] at hc
      cases hc
      simp [isPySpace] at hsp
    · right
      refine ⟨i - A.length - 1, by omega, nonspaceAt_iff.mpr ⟨c, ?_, hsp⟩⟩
      rw [List.getElem?_append, if_neg (by omega)] at hc
      have h2 : i - A.length = (i - A.length - 1) + 1 := by omega
      rw [h2, List.getElem?_cons_succ] at hc
      exact hc

/-! ### `findSuffix` scan lemmas -/

/-- The found position matches. -/
theorem findSuffix_match {p : List Char → Bool} :
    ∀ {l : List Char} {k : Nat}, findSuffix p l = some k → p (l.drop k) = true := by
  intro l
  induction l with
  | nil => intro k h; exact absurd h (by simp [findSuffix])
  | cons c rest ih =>
    intro k h
    unfold findSuffix at h
    split_ifs at h with hp
    · cases h
      exact hp
    · rcases hfs : findSuffix p rest with _ | k'
      · rw [hfs] at h
        exact absurd h (by simp)
      · rw [hfs] at h
        simp only [Option.map_some'] at h
        cases h
        exact ih hfs

/-- Positions before the found one do not match. -/
theorem findSuffix_first {p : List Char → Bool} :
    ∀ {l : List Char} {k : Nat}, findSuffix p l = some k →
      ∀ m, m < k → p (l.drop m) = false := by
  intro l
  induction l with
  | nil => intro k h; exact absurd h (by simp [findSuffix])
  | cons c rest ih =>
    intro k h m hm
    unfold findSuffix at h
    split_ifs at h with hp
    · cases h
      omega
    · rcases hfs : findSuffix p rest with _ | k'
      · rw [hfs] at h
        exact absurd h (by simp)
      · rw [hfs] at h
        simp only [Option.map_some'] at h
        cases h
        rcases m with _ | m'
        · simpa using hp
        · exact ih hfs m' (by omega)

/-- If the scan fails, no position matches (given that the empty suffix
cannot match). -/
theorem findSuffix_none {p : List Char → Bool} (hp : p [] = false) :
    ∀ {l : List Char}, findSuffix p l = none → ∀ m, p (l.drop m) = false := by
  intro l
  induction l with
  | nil => intro _ m; rw [List.drop_nil]; exact hp
  | cons c rest ih =>
    intro h m
    unfold findSuffix at h
    split_ifs at h with hcond
    · rcases hfs : findSuffix p rest with _ | k'
      · rcases m with _ | m'
        · simpa using hcond
        · exact ih hfs m'
      · rw [hfs] at h
        exact absurd h (by simp)

/-- If some position matches, the scan succeeds at a position no later. -/
theorem findSuffix_le {p : List Char → Bool} (hp : p [] = false) :
    ∀ {l : List Char} {k : Nat}, p (l.drop k) = true →
      ∃ m, findSuffix p l = some m ∧ m ≤ k := by
  intro l
  induction l with
  | nil =>
    intro k h
    rw [List.drop_nil, hp] at h
    exact absurd h (by simp)
  | cons c rest ih =>
    intro k h
    by_cases hc : p (c :: rest) = true
    · exact ⟨0, by simp [findSuffix, hc], by omega⟩
    · rcases k with _ | k'
      · exact absurd h hc
      · obtain ⟨m, hm, hmle⟩ := ih (k := k') h
        refine ⟨m + 1, ?_, by omega⟩
        unfold findSuffix
        rw [if_neg hc, hm]
        rfl

/-! ### Fence and URL occurrence transfer lemmas -/

/-- `fenceAt` as a literal occurrence. -/
theorem fenceAt_eq_litAt {l : List Char} {k : Nat} :
    fenceAt l k = litAt l k fenceL := by
  unfold fenceAt headFence
  rw [litAt_drop_zero]

/-- A fence needs three characters of room. -/
theorem fence_le {l : List Char} {k : Nat} (h : fenceAt l k = true) :
    k + 3 ≤ l.length := by
  rw [fenceAt_eq_litAt] at h
  exact litAt_le_length (by decide) h

/-- Transfer a fence out of a prefix, with its position bound. -/
theorem fence_take {l : List Char} {n k : Nat} (h : fenceAt (l.take n) k = true) :
    fenceAt l k = true ∧ k + 3 ≤ n := by
  rw [fenceAt_eq_litAt] at h ⊢
  have h2 := litAt_le_length (w := fenceL) (by decide) h
  rw [List.length_take] at h2
  exact ⟨litAt_take h, by simp [fenceL] at h2; omega⟩

/-- Shift a fence across `drop`. -/
theorem fence_drop {l : List Char} {n k : Nat} :
    fenceAt (l.drop n) k = fenceAt l (n + k) := by
  rw [fenceAt_eq_litAt, fenceAt_eq_litAt, litAt_drop]

/-- A fence cannot straddle a single-space seam. -/
theorem fence_seam {A B : List Char} {k : Nat}
    (h : fenceAt (A ++ ' ' :: B) k = true) :
    (k + 3 ≤ A.length ∧ fenceAt A k = true) ∨
      (∃ k', k = A.length + 1 + k' ∧ fenceAt B k' = true) := by
  rw [fenceAt_eq_litAt] at h
  rcases lit_seam (by decide) h with ⟨hle, hA⟩ | ⟨k', hk, hB⟩
  · exact Or.inl ⟨by simpa [fenceL] using hle, by rw [fenceAt_eq_litAt]; exact hA⟩
  · exact Or.inr ⟨k', hk, by rw [fenceAt_eq_litAt]; exact hB⟩

/-- `urlAt` via literal occurrences at absolute positions. -/
theorem nonspaceAt_drop {l : List Char} {n i : Nat} :
    nonspaceAt (l.drop n) i = nonspaceAt l (n + i) := by
  unfold nonspaceAt
  rw [List.drop_drop]

/-- `urlAt` unfolded to absolute positions. -/
theorem urlAt_eq {l : List Char} {k : Nat} :
    urlAt l k = ((litAt l k httpsL && nonspaceAt l (k + 8)) ||
      (litAt l k httpL && nonspaceAt l (k + 7))) := by
  unfold urlAt urlHeadMatch
  rw [litAt_drop_zero, litAt_drop_zero, nonspaceAt_drop, nonspaceAt_drop]

/-- A non-space witness inside a prefix, with its position bound. -/
theorem nonspaceAt_take {l : List Char} {n i : Nat}
    (h : nonspaceAt (l.take n) i = true) : nonspaceAt l i = true ∧ i < n := by
  rw [nonspaceAt_iff] at h ⊢
  obtain ⟨c, hc, hsp⟩ := h
  have hin : i < n := by
    by_contra hc'
    rw [List.getElem?_take, if_neg (by omega)] at hc
    exact absurd hc (by simp)
  rw [List.getElem?_take, if_pos hin] at hc
  exact ⟨⟨c, hc, hsp⟩, hin⟩

/-- Transfer a URL match out of a prefix, with its position bound. -/
theorem url_take {l : List Char} {n k : Nat} (h : urlAt (l.take n) k = true) :
    urlAt l k = true ∧ k < n := by
  rw [urlAt_eq] at h ⊢
  rcases (Bool.or_eq_true _ _).mp h with h1 | h1
  all_goals obtain ⟨hlit, hns⟩ := (Bool.and_eq_true _ _).mp h1
  · obtain ⟨hns', hlt⟩ := nonspaceAt_take hns
    refine ⟨?_, by omega⟩
    apply (Bool.or_eq_true _ _).mpr
    exact Or.inl ((Bool.and_eq_true _ _).mpr ⟨litAt_take hlit, hns'⟩)
  · obtain ⟨hns', hlt⟩ := nonspaceAt_take hns
    refine ⟨?_, by omega⟩
    apply (Bool.or_eq_true _ _).mpr
    exact Or.inr ((Bool.and_eq_true _ _).mpr ⟨litAt_take hlit, hns'⟩)

/-- Shift a URL match across `drop`. -/
theorem url_drop {l : List Char} {n k : Nat} :
    urlAt (l.drop n) k = urlAt l (n + k) := by
  rw [urlAt_eq, urlAt_eq, litAt_drop, litAt_drop, nonspaceAt_drop, nonspaceAt_drop]
  have h8 : n + (k + 8) = n + k + 8 := by omega
  have h7 : n + (k + 7) = n + k + 7 := by omega
  rw [h8, h7]

/-- One alternative of a URL match split at a single-space seam. -/
theorem url_seam_half {A B w : List Char} {k sl : Nat} (hw : ' ' ∉ w)
    (hwl : w.length = sl)
    (hlit : litAt (A ++ ' ' :: B) k w = true)
    (hns : nonspaceAt (A ++ ' ' :: B) (k + sl) = true) :
    (litAt A k w = true ∧ nonspaceAt A (k + sl) = true ∧ k < A.length) ∨
      (∃ k', k = A.length + 1 + k' ∧ litAt B k' w = true ∧
        nonspaceAt B (k' + sl) = true) := by
  rcases lit_seam hw hlit with ⟨hle, hA⟩ | ⟨k', hk, hB⟩
  · rcases nonspace_seam hns with ⟨hlt, hnsA⟩ | ⟨i', hi, hnsB⟩
    · exact Or.inl ⟨hA, hnsA, by omega⟩
    · omega
  · rcases nonspace_seam hns with ⟨hlt, hnsA⟩ | ⟨i', hi, hnsB⟩
    · omega
    · refine Or.inr ⟨k', hk, hB, ?_⟩
      have : i' = k' + sl := by omega
      rw [← this]
      exact hnsB

/-- A URL match cannot straddle a single-space seam. -/
theorem url_seam {A B : List Char} {k : Nat}
    (h : urlAt (A ++ ' ' :: B) k = true) :
    (urlAt A k = true ∧ k < A.length) ∨
      (∃ k', k = A.length + 1 + k' ∧ urlAt B k' = true) := by
  rw [urlAt_eq] at h
  rcases (Bool.or_eq_true _ _).mp h with h1 | h1
  all_goals obtain ⟨hlit, hns⟩ := (Bool.and_eq_true _ _).mp h1
  · rcases url_seam_half (by decide) (by decide) hlit hns with
      ⟨hA, hnsA, hlt⟩ | ⟨k', hk, hB, hnsB⟩
    · refine Or.inl ⟨?_, hlt⟩
      rw [urlAt_eq]
      simp [hA, hnsA]
    · refine Or.inr ⟨k', hk, ?_⟩
      rw [urlAt_eq]
      simp [hB, hnsB]
  · rcases url_seam_half (by decide) (by decide) hlit hns with
      ⟨hA, hnsA, hlt⟩ | ⟨k', hk, hB, hnsB⟩
    · refine Or.inl ⟨?_, hlt⟩
      rw [urlAt_eq]
      simp [hA, hnsA]
    · refine Or.inr ⟨k', hk, ?_⟩
      rw [urlAt_eq]
      simp [hB, hnsB]

/-! ### Predicate transfer along suffixes and infixes -/

/-- `dropWhile` returns a suffix. -/
theorem dropWhile_eq_drop (p : Char → Bool) :
    ∀ l : List Char, ∃ n, l.dropWhile p = l.drop n := by
  intro l
  induction l with
  | nil => exact ⟨0, rfl⟩
  | cons c rest ih =>
    by_cases h : p c = true
    · obtain ⟨n, hn⟩ := ih
      exact ⟨n + 1, by rw [List.dropWhile_cons_of_pos h]; exact hn⟩
    · exact ⟨0, by rw [List.dropWhile_cons_of_neg (by simpa using h), List.drop_zero]⟩

/-- The head of `dropWhile p l` fails `p`. -/
theorem dropWhile_head_neg {p : Char → Bool} {l : List Char} {c : Char}
    (h : (l.dropWhile p).head? = some c) : p c = false := by
  have h2 := List.head?_dropWhile_not p l
  rw [h] at h2
  exact h2

/-- `noTwoF` passes to suffixes. -/
theorem noTwoF_drop {l : List Char} (h : noTwoF l) (n : Nat) : noTwoF (l.drop n) := by
  intro p q hpq ⟨hp, hq⟩
  rw [fence_drop] at hp hq
  exact h (n + p) (n + q) (by omega) ⟨hp, hq⟩

/-- `noUrl` passes to suffixes. -/
theorem noUrl_drop {l : List Char} (h : noUrl l) (n : Nat) : noUrl (l.drop n) := by
  intro p
  rw [url_drop]
  exact h (n + p)

/-- `noTwoF` passes to prefixes. -/
theorem noTwoF_take {l : List Char} (h : noTwoF l) (n : Nat) : noTwoF (l.take n) := by
  intro p q hpq ⟨hp, hq⟩
  exact h p q hpq ⟨(fence_take hp).1, (fence_take hq).1⟩

/-- `noUrl` passes to prefixes. -/
theorem noUrl_take {l : List Char} (h : noUrl l) (n : Nat) : noUrl (l.take n) := by
  intro p
  by_contra hc
  have h1 := (url_take (l := l) (n := n) (k := p) (by simpa using hc)).1
  rw [h p] at h1
  exact absurd h1 (by simp)

/-- `spacesOk` passes to sublists of `l`. -/
theorem spacesOk_sublist {l l' : List Char} (h : spacesOk l) (hs : List.Sublist l' l) :
    spacesOk l' := fun c hc hsp => h c (hs.mem hc) hsp

/-- `noDbl` passes to prefixes. -/
theorem noDbl_take {l : List Char} (h : noDbl l) (n : Nat) : noDbl (l.take n) := by
  intro k c₁ c₂ h1 h2 hsp
  have hk1 : k < n := by
    by_contra hc
    rw [List.getElem?_take, if_neg (by omega)] at h1
    exact absurd h1 (by simp)
  have hk2 : k + 1 < n := by
    by_contra hc
    rw [List.getElem?_take, if_neg (by omega)] at h2
    exact absurd h2 (by simp)
  rw [List.getElem?_take, if_pos hk1] at h1
  rw [List.getElem?_take, if_pos hk2] at h2
  exact h k c₁ c₂ h1 h2 hsp

/-- `noDbl` passes to suffixes. -/
theorem noDbl_drop {l : List Char} (h : noDbl l) (n : Nat) : noDbl (l.drop n) := by
  intro k c₁ c₂ h1 h2 hsp
  rw [List.getElem?_drop] at h1 h2
  have h2' : l[n + k + 1]? = some c₂ := by rw [show n + k + 1 = n + (k + 1) by omega]; exact h2
  exact h (n + k) c₁ c₂ h1 h2' hsp

/-! ### Leftmost-match chunk equations for the three scanners -/

/-- A `CODEBLOCK` match starts at the head: a fence here and a later
disjoint partner fence. -/
def headMatchCB (l : List Char) : Bool :=
  headFence l && (findSuffix headFence (l.drop 3)).isSome

/-- The skip counter of `cbA` just drops characters. -/
theorem cbA_skip : ∀ (n : Nat) (l : List Char), cbA n l = cbA 0 (l.drop n) := by
  intro n l
  induction l generalizing n with
  | nil => rcases n with _ | n <;> rfl
  | cons c rest ih =>
    rcases n with _ | n
    · rfl
    · rw [show cbA (n + 1) (c :: rest) = cbA n rest from rfl, ih n,
        List.drop_succ_cons]

/-- `cbA` at a position where no `CODEBLOCK` match starts copies the head. -/
theorem cbA_cons_nomatch {c : Char} {rest : List Char}
    (h : headMatchCB (c :: rest) = false) : cbA 0 (c :: rest) = c :: cbA 0 rest := by
  unfold headMatchCB at h
  by_cases hf : headFence (c :: rest) = true
  · rw [hf] at h
    simp only [Bool.true_and, Bool.not_eq_true] at h
    have hnone : findSuffix headFence ((c :: rest).drop 3) = none :=
      Option.not_isSome_iff_eq_none.mp (by rw [h]; simp)
    show (if headFence (c :: rest) = true then _ else _) = _
    rw [if_pos hf, hnone]
  · show (if headFence (c :: rest) = true then _ else _) = _
    rw [if_neg hf]

/-- If no `CODEBLOCK` match starts anywhere, `cbA` is the identity. -/
theorem cbA_none : ∀ {l : List Char},
    findSuffix headMatchCB l = none → cbA 0 l = l := by
  intro l
  induction l with
  | nil => intro _; rfl
  | cons c rest ih =>
    intro h
    unfold findSuffix at h
    split_ifs at h with hm
    rcases hfs : findSuffix headMatchCB rest with _ | k
    · rw [cbA_cons_nomatch (by simpa using hm), ih hfs]
    · rw [hfs] at h
      exact absurd h (by simp)

/-- On the leftmost `CODEBLOCK` match, `cbA` copies the prefix, emits the
replacement space and resumes after the matched span. -/
theorem cbA_some : ∀ {l : List Char} {p : Nat},
    findSuffix headMatchCB l = some p →
      ∃ j, findSuffix headFence ((l.drop p).drop 3) = some j ∧
        cbA 0 l = l.take p ++ ' ' :: cbA 0 ((l.drop p).drop (6 + j)) := by
  intro l
  induction l with
  | nil => intro p h; exact absurd h (by simp [findSuffix])
  | cons c rest ih =>
    intro p h
    unfold findSuffix at h
    split_ifs at h with hm
    · cases h
      unfold headMatchCB at hm
      obtain ⟨hf, hpart⟩ := (Bool.and_eq_true _ _).mp hm
      obtain ⟨j, hj⟩ := Option.isSome_iff_exists.mp hpart
      refine ⟨j, by rw [List.drop_zero]; exact hj, ?_⟩
      have hstep : cbA 0 (c :: rest) = ' ' :: cbA (j + 5) rest := by
        show (if headFence (c :: rest) = true then _ else _) = _
        rw [if_pos hf, show (c :: rest).drop 3 = rest.drop 2 from rfl]
        rw [show (c :: rest).drop 3 = rest.drop 2 from rfl] at hj
        rw [hj]
      rw [hstep, cbA_skip (j + 5) rest, List.take_zero, List.drop_zero,
        List.nil_append, show (c :: rest).drop (6 + j) = rest.drop (5 + j) from ?_,
        show j + 5 = 5 + j by omega]
      rw [show 6 + j = (5 + j) + 1 by omega, List.drop_succ_cons]
    · rcases hfs : findSuffix headMatchCB rest with _ | p'
      · rw [hfs] at h
        exact absurd h (by simp)
      · rw [hfs] at h
        simp only [Option.map_some'] at h
        cases h
        obtain ⟨j, hj, hrec⟩ := ih hfs
        refine ⟨j, by rw [List.drop_succ_cons]; exact hj, ?_⟩
        rw [cbA_cons_nomatch (by simpa using hm), hrec, List.drop_succ_cons,
          List.take_succ_cons, List.cons_append]

/-- The skip counter of `urlSubA` just drops characters. -/
theorem urlA_skip : ∀ (n : Nat) (b : Bool) (l : List Char),
    urlSubA n b l = urlSubA 0 b (l.drop n) := by
  intro n b l
  induction l generalizing n with
  | nil => rcases n with _ | n <;> rcases b <;> rfl
  | cons c rest ih =>
    rcases n with _ | n
    · rfl
    · rw [show urlSubA (n + 1) b (c :: rest) = urlSubA n b rest from rfl, ih n,
        List.drop_succ_cons]

/-- A whitespace character can never start a `URL` match. -/
theorem urlHead_space {c : Char} {rest : List Char} (h : isPySpace c = true) :
    urlHeadMatch (c :: rest) = false := by
  by_contra hc
  have h1 : urlHeadMatch (c :: rest) = true := by simpa using hc
  unfold urlHeadMatch at h1
  rcases (Bool.or_eq_true _ _).mp h1 with h2 | h2
  all_goals obtain ⟨hlit, -⟩ := (Bool.and_eq_true _ _).mp h2
  · have h3 := litAt_iff.mp hlit 0 (by decide)
    simp only [Nat.add_zero, List.getElem?_cons_zero] at h3
    have : c = 'h' := by
      have h4 : httpsL[0]? = some 'h' := by decide
      rw [h4] at h3
      exact Option.some_injective _ h3
    rw [this] at h
    exact absurd h (by decide)
  · have h3 := litAt_iff.mp hlit 0 (by decide)
    simp only [Nat.add_zero, List.getElem?_cons_zero] at h3
    have : c = 'h' := by
      have h4 : httpL[0]? = some 'h' := by decide
      rw [h4] at h3
      exact Option.some_injective _ h3
    rw [this] at h
    exact absurd h (by decide)

/-- Leaving the greedy `\S+` run: consuming non-space characters until
whitespace equals restarting the plain scan after the run. -/
theorem urlA_run : ∀ l : List Char,
    urlSubA 0 true l = urlSubA 0 false (l.dropWhile (fun x => !isPySpace x)) := by
  intro l
  induction l with
  | nil => rfl
  | cons c rest ih =>
    by_cases hsp : isPySpace c = true
    · have hstop : (c :: rest).dropWhile (fun x => !isPySpace x) = c :: rest :=
        List.dropWhile_cons_of_neg (by simp [hsp])
      rw [hstop]
      show (if isPySpace c = true then _ else _) = _
      rw [if_pos hsp]
      show c :: urlSubA 0 false rest = _
      show _ = (if urlHeadMatch (c :: rest) = true then _ else _)
      rw [if_neg (by rw [urlHead_space hsp]; simp)]
    · have hcont : (c :: rest).dropWhile (fun x => !isPySpace x) =
          rest.dropWhile (fun x => !isPySpace x) :=
        List.dropWhile_cons_of_pos (by simp [hsp])
      rw [hcont]
      show (if isPySpace c = true then _ else _) = _
      rw [if_neg hsp]
      exact ih

/-- If no `URL` match starts anywhere, `urlSub` is the identity. -/
theorem urlA_none : ∀ {l : List Char},
    findSuffix urlHeadMatch l = none → urlSubA 0 false l = l := by
  intro l
  induction l with
  | nil => intro _; rfl
  | cons c rest ih =>
    intro h
    unfold findSuffix at h
    split_ifs at h with hm
    rcases hfs : findSuffix urlHeadMatch rest with _ | k
    · show (if urlHeadMatch (c :: rest) = true then _ else _) = _
      rw [if_neg (by simpa using hm), ih hfs]
    · rw [hfs] at h
      exact absurd h (by simp)

/-- On the leftmost `URL` match, `urlSub` copies the prefix, emits the
replacement space, and resumes after the scheme and the non-space run. -/
theorem urlA_some : ∀ {l : List Char} {k : Nat},
    findSuffix urlHeadMatch l = some k →
      urlSubA 0 false l = l.take k ++ ' ' :: urlSubA 0 false
        (((l.drop k).drop (schemeLen (l.drop k))).dropWhile (fun x => !isPySpace x)) := by
  intro l
  induction l with
  | nil => intro k h; exact absurd h (by simp [findSuffix])
  | cons c rest ih =>
    intro k h
    unfold findSuffix at h
    split_ifs at h with hm
    · cases h
      rw [List.drop_zero, List.take_zero, List.nil_append]
      show (if urlHeadMatch (c :: rest) = true then _ else _) = _
      rw [if_pos hm]
      have hsl : 1 ≤ schemeLen (c :: rest) := by
        unfold schemeLen
        split_ifs <;> omega
      have hdrop : (c :: rest).drop (schemeLen (c :: rest))
          = rest.drop (schemeLen (c :: rest) - 1) := by
        conv_lhs => rw [show schemeLen (c :: rest) = (schemeLen (c :: rest) - 1) + 1 by omega]
        rw [List.drop_succ_cons]
      rw [urlA_skip (schemeLen (c :: rest) - 1) true rest, urlA_run, hdrop]
    · rcases hfs : findSuffix urlHeadMatch rest with _ | k'
      · rw [hfs] at h
        exact absurd h (by simp)
      · rw [hfs] at h
        simp only [Option.map_some'] at h
        cases h
        show (if urlHeadMatch (c :: rest) = true then _ else _) = _
        rw [if_neg (by simpa using hm), ih hfs, List.drop_succ_cons,
          List.take_succ_cons, List.cons_append]

/-- Leaving a whitespace run: consuming further whitespace equals
restarting the plain scan after the run. -/
theorem wsA_run : ∀ l : List Char, wsA true l = wsA false (l.dropWhile isPySpace) := by
  intro l
  induction l with
  | nil => rfl
  | cons c rest ih =>
    by_cases hsp : isPySpace c = true
    · rw [List.dropWhile_cons_of_pos hsp]
      show (if isPySpace c = true then _ else _) = _
      rw [if_pos hsp]
      exact ih
    · rw [List.dropWhile_cons_of_neg (by simpa using hsp)]
      show (if isPySpace c = true then _ else _) = _
      rw [if_neg hsp]
      show _ = (if isPySpace c = true then _ else _)
      rw [if_neg hsp]

/-- If there is no whitespace at all, `wsCollapse` is the identity. -/
theorem wsA_none : ∀ {l : List Char},
    findSuffix headSpace l = none → wsA false l = l := by
  intro l
  induction l with
  | nil => intro _; rfl
  | cons c rest ih =>
    intro h
    unfold findSuffix at h
    split_ifs at h with hm
    rcases hfs : findSuffix headSpace rest with _ | k
    · show (if isPySpace c = true then _ else _) = _
      rw [if_neg (by simpa [headSpace] using hm), ih hfs]
    · rw [hfs] at h
      exact absurd h (by simp)

/-- On the leftmost whitespace run, `wsCollapse` copies the prefix, emits
one space, and resumes after the run. -/
theorem wsA_some : ∀ {l : List Char} {k : Nat},
    findSuffix headSpace l = some k →
      wsA false l = l.take k ++ ' ' :: wsA false ((l.drop (k + 1)).dropWhile isPySpace) := by
  intro l
  induction l with
  | nil => intro k h; exact absurd h (by simp [findSuffix])
  | cons c rest ih =>
    intro k h
    unfold findSuffix at h
    split_ifs at h with hm
    · cases h
      rw [List.take_zero, List.nil_append, List.drop_succ_cons, List.drop_zero]
      show (if isPySpace c = true then _ else _) = _
      rw [if_pos (by simpa [headSpace] using hm), wsA_run]
    · rcases hfs : findSuffix headSpace rest with _ | k'
      · rw [hfs] at h
        exact absurd h (by simp)
      · rw [hfs] at h
        simp only [Option.map_some'] at h
        cases h
        show (if isPySpace c = true then _ else _) = _
        rw [if_neg (by simpa [headSpace] using hm), ih hfs,
          show (c :: rest).drop (k' + 1 + 1) = rest.drop (k' + 1) from rfl,
          List.take_succ_cons, List.cons_append]

/-! ### Stage lemmas: `codeblockSub` -/

/-- A `CODEBLOCK` match starts at position `k` iff a fence is there and a
disjoint fence follows. -/
theorem cbMatch_iff {l : List Char} {k : Nat} :
    headMatchCB (l.drop k) = true ↔
      fenceAt l k = true ∧ ∃ q, k + 3 ≤ q ∧ fenceAt l q = true := by
  unfold headMatchCB
  rw [Bool.and_eq_true]
  constructor
  · rintro ⟨hf, hpart⟩
    obtain ⟨j, hj⟩ := Option.isSome_iff_exists.mp hpart
    rw [List.drop_drop] at hj
    have hm2 : fenceAt (l.drop (k + 3)) j = true := findSuffix_match hj
    rw [fence_drop] at hm2
    exact ⟨hf, k + 3 + j, by omega, hm2⟩
  · rintro ⟨hf, q, hq3, hq⟩
    refine ⟨hf, ?_⟩
    unfold fenceAt at hq
    have hdrop : l.drop q = ((l.drop k).drop 3).drop (q - 3 - k) := by
      rw [List.drop_drop, List.drop_drop]
      congr 1
      omega
    rw [hdrop] at hq
    obtain ⟨m, hm, -⟩ := findSuffix_le (p := headFence) (by decide) hq
    rw [hm]
    rfl

/-- `noTwoF` says exactly that no `CODEBLOCK` match starts anywhere. -/
theorem noTwoF_iff_noMatch {l : List Char} :
    noTwoF l ↔ ∀ k, headMatchCB (l.drop k) = false := by
  constructor
  · intro h k
    by_contra hc
    obtain ⟨hf, q, hq3, hq⟩ := cbMatch_iff.mp (by simpa using hc)
    exact h k q hq3 ⟨hf, hq⟩
  · intro h p q hpq ⟨hp, hq⟩
    have := cbMatch_iff.mpr ⟨hp, q, hpq, hq⟩
    rw [h p] at this
    exact absurd this (by simp)

/-- On fence-pair-free input, `CODEBLOCK.sub` changes nothing. -/
theorem codeblockSub_id {l : List Char} (h : noTwoF l) : codeblockSub l = l := by
  unfold codeblockSub
  apply cbA_none
  rcases hfs : findSuffix headMatchCB l with _ | p
  · rfl
  · have hm := findSuffix_match hfs
    rw [noTwoF_iff_noMatch.mp h p] at hm
    exact absurd hm (by simp)

/-- The output of `CODEBLOCK.sub` has no two disjoint fences. -/
theorem cbA_noTwoF : ∀ (n : Nat) (l : List Char), l.length ≤ n → noTwoF (cbA 0 l) := by
  intro n
  induction n with
  | zero =>
    intro l hl
    have hnil : l = [] := List.length_eq_zero.mp (by omega)
    subst hnil
    rintro p q hpq ⟨hp, -⟩
    rw [show cbA 0 [] = [] from rfl] at hp
    have := fence_le hp
    simp at this
  | succ n ih =>
    intro l hl
    rcases hfs : findSuffix headMatchCB l with _ | p
    · rw [cbA_none hfs]
      intro r s hrs ⟨hr, hs⟩
      have hmatch := cbMatch_iff.mpr ⟨hr, s, hrs, hs⟩
      obtain ⟨m, hm, -⟩ := findSuffix_le (p := headMatchCB) (by decide) hmatch
      rw [hfs] at hm
      exact absurd hm (by simp)
    · obtain ⟨j, hj, heq⟩ := cbA_some hfs
      rw [heq]
      have hmatch := findSuffix_match hfs
      obtain ⟨hfp, -⟩ := cbMatch_iff.mp hmatch
      have hAfree : ∀ r, fenceAt (l.take p) r = false := by
        intro r
        by_contra hc
        obtain ⟨hrl, hr3⟩ := fence_take (by simpa using hc)
        have hmr := cbMatch_iff.mpr ⟨hrl, p, hr3, hfp⟩
        have := findSuffix_first hfs r (by omega)
        rw [this] at hmr
        exact absurd hmr (by simp)
      have hlen : 0 < l.length := by
        have := fence_le hfp
        omega
      have hBlen : ((l.drop p).drop (6 + j)).length ≤ n := by
        rw [List.length_drop, List.length_drop]
        omega
      have hB := ih _ hBlen
      intro r s hrs ⟨hr, hs⟩
      rcases fence_seam hr with ⟨hrle, hrA⟩ | ⟨r', hreq, hrB⟩
      · rw [hAfree r] at hrA
        exact absurd hrA (by simp)
      · rcases fence_seam hs with ⟨hsle, hsA⟩ | ⟨s', hseq, hsB⟩
        · rw [hAfree s] at hsA
          exact absurd hsA (by simp)
        · exact hB r' s' (by omega) ⟨hrB, hsB⟩

/-- The output of `CODEBLOCK.sub` has no two disjoint fences. -/
theorem codeblockSub_noTwoF (l : List Char) : noTwoF (codeblockSub l) :=
  cbA_noTwoF l.length l le_rfl

/-! ### Stage lemmas: `urlSub` -/

/-- On URL-free input, `URL.sub` changes nothing. -/
theorem urlSub_id {l : List Char} (h : noUrl l) : urlSub l = l := by
  unfold urlSub
  apply urlA_none
  rcases hfs : findSuffix urlHeadMatch l with _ | k
  · rfl
  · have hm := findSuffix_match hfs
    have : urlAt l k = true := hm
    rw [h k] at this
    exact absurd this (by simp)

/-- The tail the `urlSub` scan recurses on is a suffix of its input. -/
theorem urlTail_drop (l : List Char) (k : Nat) :
    ∃ m, ((l.drop k).drop (schemeLen (l.drop k))).dropWhile (fun x => !isPySpace x)
        = l.drop m ∧ k + 7 ≤ m := by
  obtain ⟨t, ht⟩ := dropWhile_eq_drop (fun x => !isPySpace x)
    ((l.drop k).drop (schemeLen (l.drop k)))
  rw [ht, List.drop_drop, List.drop_drop]
  refine ⟨k + schemeLen (l.drop k) + t, by congr 1; omega, ?_⟩
  have : 7 ≤ schemeLen (l.drop k) := by
    unfold schemeLen
    split_ifs <;> omega
  omega

/-- Any fence in the output of the `urlSub` scan comes from a fence in its
input. -/
theorem urlA_fence : ∀ (n : Nat) (l : List Char), l.length ≤ n →
    ∀ r, fenceAt (urlSubA 0 false l) r = true → ∃ r', fenceAt l r' = true := by
  intro n
  induction n with
  | zero =>
    intro l hl r hr
    have hnil : l = [] := List.length_eq_zero.mp (by omega)
    subst hnil
    rw [show urlSubA 0 false [] = [] from rfl] at hr
    have := fence_le hr
    simp at this
  | succ n ih =>
    intro l hl r hr
    rcases hfs : findSuffix urlHeadMatch l with _ | k
    · rw [urlA_none hfs] at hr
      exact ⟨r, hr⟩
    · rw [urlA_some hfs] at hr
      obtain ⟨m, hm, hm7⟩ := urlTail_drop l k
      have hlen : 0 < l.length := by
        rcases l with _ | ⟨c, rest⟩
        · exact absurd hfs (by simp [findSuffix])
        · simp
      have htail_len : (l.drop m).length ≤ n := by
        rw [List.length_drop]
        omega
      rcases fence_seam hr with ⟨hrle, hrA⟩ | ⟨r', hreq, hrB⟩
      · exact ⟨r, (fence_take hrA).1⟩
      · rw [hm] at hrB
        obtain ⟨r'', hr''⟩ := ih (l.drop m) htail_len r' hrB
        rw [fence_drop] at hr''
        exact ⟨m + r'', hr''⟩

/-- `URL.sub` preserves the absence of disjoint fence pairs. -/
theorem urlA_noTwoF : ∀ (n : Nat) (l : List Char), l.length ≤ n →
    noTwoF l → noTwoF (urlSubA 0 false l) := by
  intro n
  induction n with
  | zero =>
    intro l hl _
    have hnil : l = [] := List.length_eq_zero.mp (by omega)
    subst hnil
    rintro p q hpq ⟨hp, -⟩
    rw [show urlSubA 0 false [] = [] from rfl] at hp
    have := fence_le hp
    simp at this
  | succ n ih =>
    intro l hl h
    rcases hfs : findSuffix urlHeadMatch l with _ | k
    · rw [urlA_none hfs]
      exact h
    · rw [urlA_some hfs]
      obtain ⟨m, hm, hm7⟩ := urlTail_drop l k
      have hlen : 0 < l.length := by
        rcases l with _ | ⟨c, rest⟩
        · exact absurd hfs (by simp [findSuffix])
        · simp
      have htail_len : (l.drop m).length ≤ n := by
        rw [List.length_drop]
        omega
      rintro r s hrs ⟨hr, hs⟩
      rcases fence_seam hr with ⟨hrle, hrA⟩ | ⟨r', hreq, hrB⟩
      · rcases fence_seam hs with ⟨hsle, hsA⟩ | ⟨s', hseq, hsB⟩
        · exact h r s hrs ⟨(fence_take hrA).1, (fence_take hsA).1⟩
        · obtain ⟨hrl, hrk⟩ := fence_take hrA
          rw [hm] at hsB
          obtain ⟨s'', hs''⟩ := urlA_fence n (l.drop m) htail_len s' hsB
          rw [fence_drop] at hs''
          have hkA : (l.take k).length ≤ k := by
            rw [List.length_take]
            omega
          exact h r (m + s'') (by omega) ⟨hrl, hs''⟩
      · rcases fence_seam hs with ⟨hsle, hsA⟩ | ⟨s', hseq, hsB⟩
        · omega
        · rw [hm] at hrB hsB
          exact ih (l.drop m) htail_len (noTwoF_drop h m) r' s' (by omega) ⟨hrB, hsB⟩

/-- To show a Boolean is false, refute its truth. -/
theorem bool_eq_false_of (b : Bool) (h : b = true → False) : b = false := by
  cases b
  · rfl
  · exact absurd rfl h

/-- The output of `URL.sub` contains no URL match. -/
theorem urlA_noUrl : ∀ (n : Nat) (l : List Char), l.length ≤ n →
    noUrl (urlSubA 0 false l) := by
  intro n
  induction n with
  | zero =>
    intro l hl p
    have hnil : l = [] := List.length_eq_zero.mp (by omega)
    subst hnil
    rw [show urlSubA 0 false [] = [] from rfl]
    by_contra hc
    have h1 : urlAt ([] : List Char) p = true := by simpa using hc
    rw [urlAt_eq] at h1
    rcases (Bool.or_eq_true _ _).mp h1 with h2 | h2
    all_goals obtain ⟨hlit, -⟩ := (Bool.and_eq_true _ _).mp h2
    · have := litAt_le_length (w := httpsL) (by decide) hlit
      simp [httpsL] at this
    · have := litAt_le_length (w := httpL) (by decide) hlit
      simp [httpL] at this
  | succ n ih =>
    intro l hl p
    rcases hfs : findSuffix urlHeadMatch l with _ | k
    · rw [urlA_none hfs]
      by_contra hc
      obtain ⟨m, hm, -⟩ := findSuffix_le (p := urlHeadMatch) (by decide)
        (show urlHeadMatch (l.drop p) = true by simpa using hc)
      rw [hfs] at hm
      exact absurd hm (by simp)
    · rw [urlA_some hfs]
      obtain ⟨m, hm, hm7⟩ := urlTail_drop l k
      have hlen : 0 < l.length := by
        rcases l with _ | ⟨c, rest⟩
        · exact absurd hfs (by simp [findSuffix])
        · simp
      have htail_len : (l.drop m).length ≤ n := by
        rw [List.length_drop]
        omega
      apply bool_eq_false_of
      intro hc
      rcases url_seam hc with ⟨hA, hlt⟩ | ⟨p', hpeq, hB⟩
      · obtain ⟨hl', hpk⟩ := url_take hA
        have := findSuffix_first hfs p (by
          have hkA : (l.take k).length ≤ k := by
            rw [List.length_take]
            omega
          omega)
        have h3 : urlAt l p = false := this
        rw [h3] at hl'
        exact absurd hl' (by simp)
      · rw [hm] at hB
        have := ih (l.drop m) htail_len p'
        rw [this] at hB
        exact absurd hB (by simp)

/-- The output of `URL.sub` contains no URL match. -/
theorem urlSub_noUrl (l : List Char) : noUrl (urlSub l) :=
  urlA_noUrl l.length l le_rfl

/-- `URL.sub` preserves the absence of disjoint fence pairs. -/
theorem urlSub_noTwoF {l : List Char} (h : noTwoF l) : noTwoF (urlSub l) :=
  urlA_noTwoF l.length l le_rfl h

/-! ### Stage lemmas: `replace("\n", " ")` -/

/-- A space-free literal in the newline-replaced text was already present. -/
theorem replNl_lit {l w : List Char} {k : Nat} (hw : ' ' ∉ w)
    (h : litAt (replNl l) k w = true) : litAt l k w = true := by
  rw [litAt_iff] at h ⊢
  intro m hm
  have h1 := h m hm
  unfold replNl at h1
  rw [List.getElem?_map] at h1
  rcases hg : l[k + m]? with _ | c
  · rw [hg] at h1
    simp only [Option.map_none'] at h1
    have : w.length ≤ m := List.getElem?_eq_none_iff.mp h1.symm
    omega
  · rw [hg] at h1
    simp only [Option.map_some'] at h1
    by_cases hc : c = '\n'
    · rw [hc] at h1
      simp only [if_pos rfl] at h1
      exact absurd (List.getElem?_mem h1.symm) hw
    · have h2 : (if c = '\n' then ' ' else c) = c := if_neg hc
      rw [h2] at h1
      exact h1

/-- A non-space character in the newline-replaced text was already there. -/
theorem replNl_nonspace {l : List Char} {i : Nat}
    (h : nonspaceAt (replNl l) i = true) : nonspaceAt l i = true := by
  rw [nonspaceAt_iff] at h ⊢
  obtain ⟨c', hc', hsp⟩ := h
  unfold replNl at hc'
  rw [List.getElem?_map] at hc'
  rcases hg : l[i]? with _ | c
  · rw [hg] at hc'
    exact absurd hc' (by simp)
  · rw [hg] at hc'
    simp only [Option.map_some'] at hc'
    cases hc'
    by_cases hcn : c = '\n'
    · rw [hcn, if_pos rfl] at hsp
      exact absurd hsp (by decide)
    · refine ⟨c, rfl, ?_⟩
      rw [if_neg hcn] at hsp
      exact hsp

/-- Newline replacement preserves the absence of disjoint fence pairs. -/
theorem replNl_noTwoF {l : List Char} (h : noTwoF l) : noTwoF (replNl l) := by
  rintro p q hpq ⟨hp, hq⟩
  rw [fenceAt_eq_litAt] at hp hq
  refine h p q hpq ⟨?_, ?_⟩
  · rw [fenceAt_eq_litAt]
    exact replNl_lit (by decide) hp
  · rw [fenceAt_eq_litAt]
    exact replNl_lit (by decide) hq

/-- Newline replacement preserves the absence of URL matches. -/
theorem replNl_noUrl {l : List Char} (h : noUrl l) : noUrl (replNl l) := by
  intro p
  apply bool_eq_false_of
  intro hc
  rw [urlAt_eq] at hc
  have hfalse : urlAt l p = false := h p
  rw [urlAt_eq] at hfalse
  rcases (Bool.or_eq_true _ _).mp hc with h1 | h1
  all_goals obtain ⟨hlit, hns⟩ := (Bool.and_eq_true _ _).mp h1
  · rw [replNl_lit (by decide) hlit, replNl_nonspace hns] at hfalse
    exact absurd hfalse (by simp)
  · rw [replNl_lit (by decide) hlit, replNl_nonspace hns] at hfalse
    simp at hfalse

/-- Without newlines, the replacement is the identity. -/
theorem replNl_id : ∀ {l : List Char}, '\n' ∉ l → replNl l = l := by
  intro l
  induction l with
  | nil => intro _; rfl
  | cons c rest ih =>
    intro h
    show List.map _ (c :: rest) = c :: rest
    rw [List.map_cons]
    have hc : ¬(c = '\n') := fun hh => h (hh ▸ List.mem_cons_self c rest)
    rw [if_neg hc]
    have htail : replNl rest = rest := ih (fun hm => h (List.mem_cons_of_mem c hm))
    rw [show List.map (fun c => if c = '\n' then ' ' else c) rest = replNl rest from rfl,
      htail]

/-! ### Stage lemmas: `WS.sub` -/

/-- `headSpace` of a suffix reads the character at that position. -/
theorem headSpace_getElem {l : List Char} {r : Nat} {c : Char}
    (h : l[r]? = some c) : headSpace (l.drop r) = isPySpace c := by
  obtain ⟨hlt, hval⟩ := List.getElem?_eq_some.mp h
  rw [List.drop_eq_getElem_cons hlt, hval]
  rfl

/-- If a position lies beyond the list, `headSpace` of its suffix is false. -/
theorem headSpace_none {l : List Char} {r : Nat} (h : l.length ≤ r) :
    headSpace (l.drop r) = false := by
  rw [List.drop_eq_nil_of_le h]
  rfl

/-- A whitespace-run match pins down an in-range whitespace character. -/
theorem headSpace_char {l : List Char} {k : Nat} (h : headSpace (l.drop k) = true) :
    ∃ c, l[k]? = some c ∧ isPySpace c = true := by
  rcases hg : l[k]? with _ | c
  · rw [headSpace_none (List.getElem?_eq_none_iff.mp hg)] at h
    exact absurd h (by simp)
  · exact ⟨c, rfl, by rw [← headSpace_getElem hg]; exact h⟩

/-- Expand one known character at the head of a suffix. -/
theorem drop_cons_of_getElem {l : List Char} {k : Nat} {c : Char}
    (h : l[k]? = some c) : l.drop k = c :: l.drop (k + 1) := by
  obtain ⟨hlt, hval⟩ := List.getElem?_eq_some.mp h
  rw [List.drop_eq_getElem_cons hlt, hval]

/-- The tail the `wsCollapse` scan recurses on is a suffix of its input. -/
theorem wsTail_drop (l : List Char) (k : Nat) :
    ∃ m, (l.drop (k + 1)).dropWhile isPySpace = l.drop m ∧ k + 1 ≤ m := by
  obtain ⟨t, ht⟩ := dropWhile_eq_drop isPySpace (l.drop (k + 1))
  rw [ht, List.drop_drop]
  exact ⟨k + 1 + t, rfl, by omega⟩

/-- On space-normal input (single plain spaces only), `WS.sub` changes
nothing. -/
theorem wsA_id : ∀ (n : Nat) (l : List Char), l.length ≤ n →
    spacesOk l → noDbl l → wsA false l = l := by
  intro n
  induction n with
  | zero =>
    intro l hl _ _
    have hnil : l = [] := List.length_eq_zero.mp (by omega)
    subst hnil
    rfl
  | succ n ih =>
    intro l hl hs hd
    rcases hfs : findSuffix headSpace l with _ | k
    · exact wsA_none hfs
    · rw [wsA_some hfs]
      obtain ⟨ck, hck, hcksp⟩ := headSpace_char (findSuffix_match hfs)
      have hck' : ck = ' ' := hs ck (List.getElem?_mem hck) hcksp
      have hklt : k < l.length := by
        by_contra hc
        have := findSuffix_match hfs
        rw [headSpace_none (by omega)] at this
        exact absurd this (by simp)
      have hdropk : l.drop k = ' ' :: l.drop (k + 1) :=
        drop_cons_of_getElem (by rw [hck, hck'])
      rcases hnext : l[k + 1]? with _ | c₂
      · have hnil2 : l.drop (k + 1) = [] :=
          List.drop_eq_nil_of_le (List.getElem?_eq_none_iff.mp hnext)
        rw [hnil2]
        show l.take k ++ ' ' :: wsA false ([].dropWhile isPySpace) = l
        rw [show ([] : List Char).dropWhile isPySpace = [] from rfl,
          show wsA false [] = [] from rfl]
        conv_rhs => rw [← List.take_append_drop k l, hdropk, hnil2]
      · have hc₂ : isPySpace c₂ = false := by
          by_contra hcc
          exact hd k ck c₂ hck hnext ⟨hcksp, by simpa using hcc⟩
        have hdrop1 : l.drop (k + 1) = c₂ :: l.drop (k + 2) :=
          drop_cons_of_getElem hnext
        rw [hdrop1, List.dropWhile_cons_of_neg (by simp [hc₂]), ← hdrop1]
        have hrec : wsA false (l.drop (k + 1)) = l.drop (k + 1) := by
          apply ih
          · rw [List.length_drop]
            omega
          · exact spacesOk_sublist hs (List.drop_sublist (k + 1) l)
          · exact noDbl_drop hd (k + 1)
        rw [hrec]
        conv_rhs => rw [← List.take_append_drop k l, hdropk]

/-- Every whitespace character in the output of `WS.sub` is a plain space. -/
theorem wsA_spacesOk : ∀ (n : Nat) (l : List Char), l.length ≤ n →
    spacesOk (wsA false l) := by
  intro n
  induction n with
  | zero =>
    intro l hl
    have hnil : l = [] := List.length_eq_zero.mp (by omega)
    subst hnil
    intro c hc
    exact absurd hc (by simp [wsA])
  | succ n ih =>
    intro l hl
    rcases hfs : findSuffix headSpace l with _ | k
    · rw [wsA_none hfs]
      intro c hc hsp
      obtain ⟨r, hr⟩ := List.mem_iff_getElem?.mp hc
      have hhead : headSpace (l.drop r) = true := by
        rw [headSpace_getElem hr]
        exact hsp
      obtain ⟨m, hm, -⟩ := findSuffix_le (p := headSpace) (by decide) hhead
      rw [hfs] at hm
      exact absurd hm (by simp)
    · rw [wsA_some hfs]
      have hklt : k < l.length := by
        by_contra hc
        have := findSuffix_match hfs
        rw [headSpace_none (by omega)] at this
        exact absurd this (by simp)
      intro c hc hsp
      rcases List.mem_append.mp hc with hcA | hcB
      · obtain ⟨r, hr⟩ := List.mem_iff_getElem?.mp hcA
        have hrk : r < k := by
          have h1 : r < (l.take k).length := (List.getElem?_eq_some.mp hr).1
          rw [List.length_take] at h1
          omega
        rw [List.getElem?_take, if_pos hrk] at hr
        have := findSuffix_first hfs r hrk
        rw [headSpace_getElem hr, hsp] at this
        exact absurd this (by simp)
      · rcases List.mem_cons.mp hcB with hceq | hcB'
        · exact hceq
        · obtain ⟨m, hm, hm1⟩ := wsTail_drop l k
          rw [hm] at hcB'
          exact ih (l.drop m) (by rw [List.length_drop]; omega) c hcB' hsp

/-- The output of `WS.sub` has no two adjacent whitespace characters. -/
theorem wsA_noDbl : ∀ (n : Nat) (l : List Char), l.length ≤ n →
    noDbl (wsA false l) := by
  intro n
  induction n with
  | zero =>
    intro l hl
    have hnil : l = [] := List.length_eq_zero.mp (by omega)
    subst hnil
    intro k c₁ c₂ h1 _ _
    exact absurd h1 (by simp [wsA])
  | succ n ih =>
    intro l hl
    rcases hfs : findSuffix headSpace l with _ | k
    · rw [wsA_none hfs]
      intro j c₁ c₂ h1 h2 hsp
      have hhead : headSpace (l.drop j) = true := by
        rw [headSpace_getElem h1]
        exact hsp.1
      obtain ⟨m, hm, -⟩ := findSuffix_le (p := headSpace) (by decide) hhead
      rw [hfs] at hm
      exact absurd hm (by simp)
    · rw [wsA_some hfs]
      have hklt : k < l.length := by
        by_contra hc
        have := findSuffix_match hfs
        rw [headSpace_none (by omega)] at this
        exact absurd this (by simp)
      have hAlen : (l.take k).length = k := List.length_take_of_le (by omega)
      obtain ⟨m, hm, hm1⟩ := wsTail_drop l k
      have hAns : ∀ (r : Nat) (c : Char), (l.take k)[r]? = some c → isPySpace c = false := by
        intro r c hr
        have hrk : r < k := by
          have h1 : r < (l.take k).length := (List.getElem?_eq_some.mp hr).1
          omega
        rw [List.getElem?_take, if_pos hrk] at hr
        have := findSuffix_first hfs r hrk
        rw [headSpace_getElem hr] at this
        exact this
      set B := wsA false ((l.drop (k + 1)).dropWhile isPySpace) with hB
      have hBhead : ∀ c, B[0]? = some c → isPySpace c = false := by
        intro c hc
        rcases hx : (l.drop (k + 1)).dropWhile isPySpace with _ | ⟨a, t⟩
        · rw [hB, hx] at hc
          exact absurd hc (by simp [wsA])
        · have ha : isPySpace a = false := by
            apply dropWhile_head_neg (p := isPySpace) (l := l.drop (k + 1))
            rw [hx]
            rfl
          rw [hB, hx] at hc
          rw [show wsA false (a :: t) = if isPySpace a = true then ' ' :: wsA true t
              else a :: wsA false t from rfl, if_neg (by simp [ha])] at hc
          simp only [List.getElem?_cons_zero] at hc
          cases hc
          exact ha
      have hidx : ∀ (j : Nat) (c : Char), (l.take k ++ ' ' :: B)[j]? = some c →
          (j < k ∧ (l.take k)[j]? = some c) ∨ (j = k ∧ c = ' ') ∨
            (∃ j', j = k + 1 + j' ∧ B[j']? = some c) := by
        intro j c hc
        rcases Nat.lt_or_ge j k with hj | hj
        · left
          rw [List.getElem?_append, if_pos (by omega)] at hc
          exact ⟨hj, hc⟩
        · rw [List.getElem?_append, if_neg (by omega), hAlen] at hc
          rcases Nat.eq_or_lt_of_le hj with hje | hjl
          · right; left
            rw [← hje, Nat.sub_self] at hc
            simp only [List.getElem?_cons_zero] at hc
            cases hc
            exact ⟨hje.symm, rfl⟩
          · right; right
            refine ⟨j - k - 1, by omega, ?_⟩
            rw [show j - k = (j - k - 1) + 1 by omega, List.getElem?_cons_succ] at hc
            exact hc
      intro j c₁ c₂ h1 h2 hsp
      rcases hidx j c₁ h1 with ⟨hjk, hA1⟩ | ⟨hje, hce⟩ | ⟨j', hjeq, hB1⟩
      · rw [hAns j c₁ hA1] at hsp
        exact absurd hsp.1 (by simp)
      · rcases hidx (j + 1) c₂ h2 with ⟨hj2, -⟩ | ⟨hj2, -⟩ | ⟨j₂, hj2, hB2⟩
        · omega
        · omega
        · have hj₂0 : j₂ = 0 := by omega
          rw [hj₂0] at hB2
          rw [hBhead c₂ hB2] at hsp
          exact absurd hsp.2 (by simp)
      · rcases hidx (j + 1) c₂ h2 with ⟨hj2, -⟩ | ⟨hj2, -⟩ | ⟨j₂, hj2, hB2⟩
        · omega
        · omega
        · have hj₂ : j₂ = j' + 1 := by omega
          rw [hj₂] at hB2
          rw [hB, hm] at hB1 hB2
          exact ih (l.drop m) (by rw [List.length_drop]; omega) j' c₁ c₂ hB1 hB2 hsp

/-- Any fence in the output of `WS.sub` comes from a fence in the input. -/
theorem wsA_fence : ∀ (n : Nat) (l : List Char), l.length ≤ n →
    ∀ r, fenceAt (wsA false l) r = true → ∃ r', fenceAt l r' = true := by
  intro n
  induction n with
  | zero =>
    intro l hl r hr
    have hnil : l = [] := List.length_eq_zero.mp (by omega)
    subst hnil
    rw [show wsA false [] = [] from rfl] at hr
    have := fence_le hr
    simp at this
  | succ n ih =>
    intro l hl r hr
    rcases hfs : findSuffix headSpace l with _ | k
    · rw [wsA_none hfs] at hr
      exact ⟨r, hr⟩
    · rw [wsA_some hfs] at hr
      have hklt : k < l.length := by
        by_contra hc
        have := findSuffix_match hfs
        rw [headSpace_none (by omega)] at this
        exact absurd this (by simp)
      obtain ⟨m, hm, hm1⟩ := wsTail_drop l k
      rcases fence_seam hr with ⟨hrle, hrA⟩ | ⟨r', hreq, hrB⟩
      · exact ⟨r, (fence_take hrA).1⟩
      · rw [hm] at hrB
        obtain ⟨r'', hr''⟩ := ih (l.drop m) (by rw [List.length_drop]; omega) r' hrB
        rw [fence_drop] at hr''
        exact ⟨m + r'', hr''⟩

/-- `WS.sub` preserves the absence of disjoint fence pairs. -/
theorem wsA_noTwoF : ∀ (n : Nat) (l : List Char), l.length ≤ n →
    noTwoF l → noTwoF (wsA false l) := by
  intro n
  induction n with
  | zero =>
    intro l hl _
    have hnil : l = [] := List.length_eq_zero.mp (by omega)
    subst hnil
    rintro p q hpq ⟨hp, -⟩
    rw [show wsA false [] = [] from rfl] at hp
    have := fence_le hp
    simp at this
  | succ n ih =>
    intro l hl h
    rcases hfs : findSuffix headSpace l with _ | k
    · rw [wsA_none hfs]
      exact h
    · rw [wsA_some hfs]
      have hklt : k < l.length := by
        by_contra hc
        have := findSuffix_match hfs
        rw [headSpace_none (by omega)] at this
        exact absurd this (by simp)
      obtain ⟨m, hm, hm1⟩ := wsTail_drop l k
      rintro r s hrs ⟨hr, hs⟩
      rcases fence_seam hr with ⟨hrle, hrA⟩ | ⟨r', hreq, hrB⟩
      · rcases fence_seam hs with ⟨hsle, hsA⟩ | ⟨s', hseq, hsB⟩
        · exact h r s hrs ⟨(fence_take hrA).1, (fence_take hsA).1⟩
        · obtain ⟨hrl, hrk⟩ := fence_take hrA
          rw [hm] at hsB
          obtain ⟨s'', hs''⟩ := wsA_fence n (l.drop m)
            (by rw [List.length_drop]; omega) s' hsB
          rw [fence_drop] at hs''
          have hkA : (l.take k).length ≤ k := by
            rw [List.length_take]
            omega
          exact h r (m + s'') (by omega) ⟨hrl, hs''⟩
      · rcases fence_seam hs with ⟨hsle, hsA⟩ | ⟨s', hseq, hsB⟩
        · omega
        · rw [hm] at hrB hsB
          exact ih (l.drop m) (by rw [List.length_drop]; omega)
            (noTwoF_drop h m) r' s' (by omega) ⟨hrB, hsB⟩

/-- `WS.sub` preserves the absence of URL matches. -/
theorem wsA_noUrl : ∀ (n : Nat) (l : List Char), l.length ≤ n →
    noUrl l → noUrl (wsA false l) := by
  intro n
  induction n with
  | zero =>
    intro l hl _ p
    have hnil : l = [] := List.length_eq_zero.mp (by omega)
    subst hnil
    rw [show wsA false [] = [] from rfl]
    apply bool_eq_false_of
    intro hc
    rw [urlAt_eq] at hc
    rcases (Bool.or_eq_true _ _).mp hc with h2 | h2
    all_goals obtain ⟨hlit, -⟩ := (Bool.and_eq_true _ _).mp h2
    · have := litAt_le_length (w := httpsL) (by decide) hlit
      simp [httpsL] at this
    · have := litAt_le_length (w := httpL) (by decide) hlit
      simp [httpL] at this
  | succ n ih =>
    intro l hl h p
    rcases hfs : findSuffix headSpace l with _ | k
    · rw [wsA_none hfs]
      exact h p
    · rw [wsA_some hfs]
      have hklt : k < l.length := by
        by_contra hc
        have := findSuffix_match hfs
        rw [headSpace_none (by omega)] at this
        exact absurd this (by simp)
      obtain ⟨m, hm, hm1⟩ := wsTail_drop l k
      apply bool_eq_false_of
      intro hc
      rcases url_seam hc with ⟨hA, hlt⟩ | ⟨p', hpeq, hB⟩
      · obtain ⟨hl', hpk⟩ := url_take hA
        have h3 : urlAt l p = false := h p
        rw [h3] at hl'
        exact absurd hl' (by simp)
      · rw [hm] at hB
        have := ih (l.drop m) (by rw [List.length_drop]; omega) (noUrl_drop h m) p'
        rw [this] at hB
        exact absurd hB (by simp)

/-! ### Stage lemmas: `strip` -/

/-- `head?` is unchanged by a positive `take`. -/
theorem head_of_take {l : List Char} {t : Nat} (ht : 0 < t) :
    (l.take t).head? = l.head? := by
  rcases l with _ | ⟨c, rest⟩
  · rw [List.take_nil]
  · rcases t with _ | t'
    · omega
    · rw [List.take_succ_cons]
      rfl

/-- If the head fails `p`, `dropWhile p` changes nothing. -/
theorem dropWhile_of_head {p : Char → Bool} {l : List Char}
    (h : ∀ c, l.head? = some c → p c = false) : l.dropWhile p = l := by
  rcases l with _ | ⟨c, rest⟩
  · rfl
  · exact List.dropWhile_cons_of_neg (by rw [h c rfl]; simp)

/-- `dropWhile` is idempotent. -/
theorem dropWhile_idem (p : Char → Bool) (l : List Char) :
    (l.dropWhile p).dropWhile p = l.dropWhile p :=
  dropWhile_of_head (fun _ hc => dropWhile_head_neg hc)

/-- Stripping trailing characters yields a prefix. -/
theorem rev_dropWhile_rev_take (p : Char → Bool) (x : List Char) :
    ∃ t, ((x.reverse.dropWhile p).reverse) = x.take t := by
  obtain ⟨m, hm⟩ := dropWhile_eq_drop p x.reverse
  rw [hm, List.reverse_drop, List.reverse_reverse, List.length_reverse]
  exact ⟨x.length - m, rfl⟩

/-- `strip` returns an infix: a prefix of a suffix. -/
theorem stripChars_as_drop_take (l : List Char) :
    ∃ a t, stripChars l = ((l.drop a).take t) := by
  unfold stripChars
  obtain ⟨a, ha⟩ := dropWhile_eq_drop isPySpace l
  rw [ha]
  obtain ⟨t, ht⟩ := rev_dropWhile_rev_take isPySpace (l.drop a)
  exact ⟨a, t, ht⟩

/-- `strip` preserves the absence of disjoint fence pairs. -/
theorem stripChars_noTwoF {l : List Char} (h : noTwoF l) : noTwoF (stripChars l) := by
  obtain ⟨a, t, heq⟩ := stripChars_as_drop_take l
  rw [heq]
  exact noTwoF_take (noTwoF_drop h a) t

/-- `strip` preserves the absence of URL matches. -/
theorem stripChars_noUrl {l : List Char} (h : noUrl l) : noUrl (stripChars l) := by
  obtain ⟨a, t, heq⟩ := stripChars_as_drop_take l
  rw [heq]
  exact noUrl_take (noUrl_drop h a) t

/-- `strip` preserves space normality. -/
theorem stripChars_spacesOk {l : List Char} (h : spacesOk l) :
    spacesOk (stripChars l) := by
  obtain ⟨a, t, heq⟩ := stripChars_as_drop_take l
  rw [heq]
  exact spacesOk_sublist h ((List.take_sublist _ _).trans (List.drop_sublist _ _))

/-- `strip` preserves the absence of adjacent whitespace. -/
theorem stripChars_noDbl {l : List Char} (h : noDbl l) : noDbl (stripChars l) := by
  obtain ⟨a, t, heq⟩ := stripChars_as_drop_take l
  rw [heq]
  exact noDbl_take (noDbl_drop h a) t

/-- `strip` is idempotent. -/
theorem stripChars_idem (l : List Char) : stripChars (stripChars l) = stripChars l := by
  obtain ⟨t, ht⟩ := rev_dropWhile_rev_take isPySpace (l.dropWhile isPySpace)
  have hSL : stripChars l = (l.dropWhile isPySpace).take t := ht
  have hhead : ∀ c, (stripChars l).head? = some c → isPySpace c = false := by
    intro c hc
    rw [hSL] at hc
    rcases t with _ | t'
    · rw [List.take_zero] at hc
      exact absurd hc (by simp)
    · rw [head_of_take (by omega)] at hc
      exact dropWhile_head_neg hc
  have h1 : (stripChars l).dropWhile isPySpace = stripChars l := dropWhile_of_head hhead
  show ((((stripChars l).dropWhile isPySpace).reverse.dropWhile isPySpace).reverse) =
    stripChars l
  rw [h1]
  have h2 : (stripChars l).reverse =
      (l.dropWhile isPySpace).reverse.dropWhile isPySpace := by
    show ((((l.dropWhile isPySpace).reverse.dropWhile isPySpace).reverse)).reverse = _
    rw [List.reverse_reverse]
  rw [h2, dropWhile_idem]
  rfl

/-! ### The full pipeline -/

/-- Normal form of `clean_text` outputs: no code-block match, no URL match,
all whitespace is single plain spaces. -/
def cleanNF (l : List Char) : Prop := noTwoF l ∧ noUrl l ∧ spacesOk l ∧ noDbl l

/-- Space-normal text has no newline. -/
theorem spacesOk_no_nl {l : List Char} (h : spacesOk l) : '\n' ∉ l := by
  intro hm
  have := h '\n' hm (by decide)
  exact absurd this (by decide)

/-- The pipeline output is in normal form. -/
theorem pipeline_cleanNF (d : List Char) :
    cleanNF (stripChars (wsCollapse (replNl (urlSub (codeblockSub d))))) := by
  have h1 : noTwoF (codeblockSub d) := codeblockSub_noTwoF d
  have h2 : noTwoF (urlSub (codeblockSub d)) := urlSub_noTwoF h1
  have h2b : noUrl (urlSub (codeblockSub d)) := urlSub_noUrl _
  have h3 : noTwoF (replNl (urlSub (codeblockSub d))) := replNl_noTwoF h2
  have h3b : noUrl (replNl (urlSub (codeblockSub d))) := replNl_noUrl h2b
  exact ⟨stripChars_noTwoF (wsA_noTwoF _ _ le_rfl h3),
    stripChars_noUrl (wsA_noUrl _ _ le_rfl h3b),
    stripChars_spacesOk (wsA_spacesOk _ _ le_rfl),
    stripChars_noDbl (wsA_noDbl _ _ le_rfl)⟩

/-- On normal-form input the pipeline only re-strips. -/
theorem pipeline_id {l : List Char} (h : cleanNF l) :
    stripChars (wsCollapse (replNl (urlSub (codeblockSub l)))) = stripChars l := by
  obtain ⟨h1, h2, h3, h4⟩ := h
  rw [codeblockSub_id h1, urlSub_id h2, replNl_id (spacesOk_no_nl h3),
    show wsCollapse l = wsA false l from rfl, wsA_id l.length l le_rfl h3 h4]

/-- Re-normalising an untruncated normal form changes nothing. -/
theorem preClean_data_idem (s : String) : preClean ⟨preClean s⟩ = preClean s := by
  show stripChars (wsCollapse (replNl (urlSub (codeblockSub (preClean s))))) = preClean s
  have hNF : cleanNF (preClean s) := pipeline_cleanNF s.data
  rw [pipeline_id hNF]
  show stripChars (stripChars (wsCollapse (replNl (urlSub (codeblockSub s.data))))) = _
  rw [stripChars_idem]
  rfl

/-! ### A truncation counterexample family: alternating text -/

/-- The text consisting of `n` repetitions of the two characters
"a space". -/
def repAS : Nat → List Char
  | 0 => []
  | n + 1 => 'a' :: ' ' :: repAS n

/-- 2001 repetitions: 4002 characters, normalising to 4001 before the clip. -/
def bigInput : String := ⟨repAS 2001⟩

/-- Length of the alternating text. -/
theorem length_repAS : ∀ n, (repAS n).length = 2 * n := by
  intro n
  induction n with
  | zero => rfl
  | succ n ih =>
    show ('a' :: ' ' :: repAS n).length = 2 * (n + 1)
    rw [List.length_cons, List.length_cons, ih]
    omega

/-- The alternating text only uses two characters. -/
theorem mem_repAS : ∀ n c, c ∈ repAS n → c = 'a' ∨ c = ' ' := by
  intro n
  induction n with
  | zero => intro c hc; exact absurd hc (by simp [repAS])
  | succ n ih =>
    intro c hc
    rcases List.mem_cons.mp hc with h | hc'
    · exact Or.inl h
    · rcases List.mem_cons.mp hc' with h | hc''
      · exact Or.inr h
      · exact ih c hc''

/-- A text without backticks has no fence anywhere. -/
theorem fence_free_of_no_tick {l : List Char} (h : '\x60' ∉ l) :
    ∀ p, fenceAt l p = false := by
  intro p
  apply bool_eq_false_of
  intro hp
  rw [fenceAt_eq_litAt] at hp
  have h1 := litAt_iff.mp hp 0 (by decide)
  rw [Nat.add_zero] at h1
  have h2 : fenceL[0]? = some '\x60' := by decide
  rw [h2] at h1
  exact h (List.getElem?_mem h1)

/-- A text without the letter h has no URL match anywhere. -/
theorem url_free_of_no_h {l : List Char} (h : 'h' ∉ l) : noUrl l := by
  intro p
  apply bool_eq_false_of
  intro hp
  rw [urlAt_eq] at hp
  rcases (Bool.or_eq_true _ _).mp hp with h1 | h1
  all_goals obtain ⟨hlit, -⟩ := (Bool.and_eq_true _ _).mp h1
  · have h2 := litAt_iff.mp hlit 0 (by decide)
    rw [Nat.add_zero] at h2
    have h3 : httpsL[0]? = some 'h' := by decide
    rw [h3] at h2
    exact h (List.getElem?_mem h2)
  · have h2 := litAt_iff.mp hlit 0 (by decide)
    rw [Nat.add_zero] at h2
    have h3 : httpL[0]? = some 'h' := by decide
    rw [h3] at h2
    exact h (List.getElem?_mem h2)

/-- The alternating text has no fence pairs. -/
theorem noTwoF_repAS (n : Nat) : noTwoF (repAS n) := by
  have htick : '\x60' ∉ repAS n := by
    intro hm
    rcases mem_repAS n _ hm with h | h <;> exact absurd h (by decide)
  rintro p q hpq ⟨hp, -⟩
  rw [fence_free_of_no_tick htick p] at hp
  exact absurd hp (by simp)

/-- The alternating text has no URL matches. -/
theorem noUrl_repAS (n : Nat) : noUrl (repAS n) := by
  apply url_free_of_no_h
  intro hm
  rcases mem_repAS n _ hm with h | h <;> exact absurd h (by decide)

/-- The alternating text has no newline. -/
theorem no_nl_repAS (n : Nat) : '\n' ∉ repAS n := by
  intro hm
  rcases mem_repAS n _ hm with h | h <;> exact absurd h (by decide)

/-- The alternating text is space-normal. -/
theorem spacesOk_repAS (n : Nat) : spacesOk (repAS n) := by
  intro c hc hsp
  rcases mem_repAS n _ hc with h | h
  · rw [h] at hsp
    exact absurd hsp (by decide)
  · exact h

/-- The alternating text has no adjacent whitespace. -/
theorem noDbl_repAS : ∀ n, noDbl (repAS n) := by
  intro n
  induction n with
  | zero =>
    intro k c₁ c₂ h1 _ _
    exact absurd h1 (by simp [repAS])
  | succ n ih =>
    intro k c₁ c₂ h1 h2 hsp
    rcases k with _ | (_ | k')
    · rw [show repAS (n + 1) = 'a' :: ' ' :: repAS n from rfl,
        List.getElem?_cons_zero] at h1
      cases h1
      exact absurd hsp.1 (by decide)
    · rw [show repAS (n + 1) = 'a' :: ' ' :: repAS n from rfl,
        List.getElem?_cons_succ, List.getElem?_cons_succ] at h2
      rcases n with _ | n'
      · exact absurd h2 (by simp [repAS])
      · rw [show repAS (n' + 1) = 'a' :: ' ' :: repAS n' from rfl,
          List.getElem?_cons_zero] at h2
        cases h2
        exact absurd hsp.2 (by decide)
    · rw [show repAS (n + 1) = 'a' :: ' ' :: repAS n from rfl,
        List.getElem?_cons_succ, List.getElem?_cons_succ] at h1 h2
      exact ih k' c₁ c₂ h1 h2 hsp

/-- Append form of the alternating text. -/
theorem repAS_succ_append : ∀ n, repAS (n + 1) = repAS n ++ ['a', ' '] := by
  intro n
  induction n with
  | zero => rfl
  | succ n ih =>
    show 'a' :: ' ' :: repAS (n + 1) = ('a' :: ' ' :: repAS n) ++ ['a', ' ']
    rw [ih, List.cons_append, List.cons_append]

/-- Stripping the alternating text removes exactly the trailing space. -/
theorem stripChars_repAS (n : Nat) : stripChars (repAS (n + 1)) = repAS n ++ ['a'] := by
  unfold stripChars
  have hl : (repAS (n + 1)).dropWhile isPySpace = repAS (n + 1) := by
    show ('a' :: ' ' :: repAS n).dropWhile isPySpace = _
    rw [List.dropWhile_cons_of_neg (by decide)]
    rfl
  rw [hl, repAS_succ_append, List.reverse_append,
    show (['a', ' '] : List Char).reverse = [' ', 'a'] from rfl,
    show ([' ', 'a'] ++ (repAS n).reverse).dropWhile isPySpace
      = ('a' :: (repAS n).reverse).dropWhile isPySpace from
      List.dropWhile_cons_of_pos (by decide),
    List.dropWhile_cons_of_neg (by decide), List.reverse_cons, List.reverse_reverse]

/-- The pipeline on the alternating text: only the trailing space goes. -/
theorem preClean_repAS (n : Nat) : preClean ⟨repAS (n + 1)⟩ = repAS n ++ ['a'] := by
  show stripChars (wsCollapse (replNl (urlSub (codeblockSub (repAS (n + 1)))))) = _
  rw [codeblockSub_id (noTwoF_repAS _), urlSub_id (noUrl_repAS _),
    replNl_id (no_nl_repAS _),
    show wsCollapse (repAS (n + 1)) = wsA false (repAS (n + 1)) from rfl,
    wsA_id (repAS (n + 1)).length _ le_rfl (spacesOk_repAS _) (noDbl_repAS _),
    stripChars_repAS]

/-- A nonempty alternating string is not the empty string. -/
theorem repAS_ne_empty (n : Nat) : ((⟨repAS (n + 1)⟩ : String) == "") = false := by
  rw [beq_eq_false_iff_ne]
  intro h
  have hd : repAS (n + 1) = [] := congrArg String.data h
  have := length_repAS (n + 1)
  rw [hd] at this
  simp at this

/-- First pass on the 4002-character input: strip to 4001, clip to 4000,
ending in a space. -/
theorem clean_text_big : clean_text bigInput = ⟨repAS 2000⟩ := by
  unfold clean_text
  have hne : (bigInput == "") = false := repAS_ne_empty 2000
  rw [if_neg (by rw [hne]; simp)]
  rw [show preClean bigInput = repAS 2000 ++ ['a'] from preClean_repAS 2000]
  have hlen : (repAS 2000).length = 4000 := by rw [length_repAS]
  have hdata : (repAS 2000 ++ ['a']).take 4000 = repAS 2000 := by
    rw [← hlen]
    exact List.take_left _ _
  rw [hdata]

/-- Second pass: the clipped text ends in a space, which `strip` removes. -/
theorem clean_text_big2 : clean_text ⟨repAS 2000⟩ = ⟨repAS 1999 ++ ['a']⟩ := by
  unfold clean_text
  have hne : ((⟨repAS 2000⟩ : String) == "") = false := repAS_ne_empty 1999
  rw [if_neg (by rw [hne]; simp)]
  rw [show preClean ⟨repAS 2000⟩ = repAS 1999 ++ ['a'] from preClean_repAS 1999]
  have hdata : (repAS 1999 ++ ['a']).take 4000 = repAS 1999 ++ ['a'] := by
    apply List.take_of_length_le
    rw [List.length_append, length_repAS,
      show (['a'] : List Char).length = 1 from rfl]
    omega
  rw [hdata]

/-- Claim C7 (counterexample): `clean_text` is not idempotent. On 2001
repetitions of "a space" (4002 characters), the first pass strips to 4001
characters and the `[:4000]` clip then ends the text with a space; the
second pass strips that space, so the results differ (lengths 4000 and
3999). -/
theorem claim_c7_counterexample :
    clean_text (clean_text bigInput) ≠ clean_text bigInput := by
  rw [clean_text_big, clean_text_big2]
  intro h
  have hd : repAS 1999 ++ ['a'] = repAS 2000 := congrArg String.data h
  have hlen : (repAS 1999 ++ ['a']).length = (repAS 2000).length := by rw [hd]
  rw [List.length_append, length_repAS, length_repAS] at hlen
  simp at hlen

/-- Claim C7 (amended): `clean_text` always returns at most 4000
characters, maps the empty string to itself, and is idempotent on every
input whose normalised text fits the 4000-character clip — truncation is
the only source of non-idempotence. -/
theorem claim_c7_amended :
    (∀ s : String, (clean_text s).length ≤ 4000) ∧
      clean_text "" = "" ∧
      (∀ s : String, (preClean s).length ≤ 4000 →
        clean_text (clean_text s) = clean_text s) := by
  refine ⟨?_, rfl, ?_⟩
  · intro s
    unfold clean_text
    split_ifs with hs
    · decide
    · show ((preClean s).take 4000).length ≤ 4000
      rw [List.length_take]
      omega
  · intro s h
    by_cases hs : s = ""
    · subst hs
      rfl
    · have hs' : (s == "") = false := beq_eq_false_iff_ne.mpr hs
      have hR : clean_text s = ⟨preClean s⟩ := by
        unfold clean_text
        rw [if_neg (by rw [hs']; simp), List.take_of_length_le h]
      rw [hR]
      by_cases hP : preClean s = []
      · rw [hP]
        rfl
      · have hne : ((⟨preClean s⟩ : String) == "") = false := by
          rw [beq_eq_false_iff_ne]
          intro hcc
          exact hP (congrArg String.data hcc)
        unfold clean_text
        rw [if_neg (by rw [hne]; simp), preClean_data_idem s,
          List.take_of_length_le h]

/-- Witness for the amended C7 on a concrete small input. -/
theorem claim_c7_amended_witness :
    (preClean "a").length ≤ 4000 ∧ clean_text (clean_text "a") = clean_text "a" :=
  ⟨by decide, claim_c7_amended.2.2 "a" (by decide)⟩

end PMCopilot
